import Mathlib

/-!
Shallow embedding of the History Synchronization & Threading Engine of the
chat-analyzer repository (src/clients/telegram_client.py,
src/clients/webex_client.py, src/services/cache.py), together with proofs
settling the frozen claims C1-C10.

Modelling conventions, used throughout:
* Python `str` message ids stay `String`.
* ISO-8601 timestamp strings are modelled by the instants they denote, as `Int`
  (microseconds).  For the fixed-width UTC ISO format produced by the sources,
  lexicographic string order agrees with instant order, so Python's
  `sort(key=lambda m: m.timestamp)` is modelled by sorting on the `Int` value.
* A calendar day in the caller's timezone is an `Int` day number; the caller's
  timezone is an `Int` offset `tz` (microseconds east of UTC), so the local day
  holding a UTC instant `ts` is `(ts + tz).fdiv dayLen`, mirroring
  `msg_dt_aware.astimezone(user_tz)` day truncation.
* Python truthiness on optional strings: `None` and `""` are falsy.
* Python `dict` is modelled by an association list with insertion order and
  update-in-place (`alPush` below), exactly the iteration-order semantics
  the code relies on.
* `bytes` payloads are `List Nat`.
* A raised-and-uncaught Python exception is `Except.error ()`.
-/

/-- `User` record of src/clients/base_client.py. -/
structure MUser where
  id : String
  name : String
deriving DecidableEq, Repr

/-- `Attachment(mime_type, data)` as constructed by both clients
(`Attachment(mime_type=mime, data=encoded)`); `data` is the base64 string. -/
structure Attachment where
  mime_type : String
  data : String
deriving DecidableEq, Repr

/-- The `Message` model as the telegram/webex clients construct it:
`id`, `text`, `author`, `timestamp`, `thread_id`, `attachments`.
`thread_id` initially carries the reply-to / parent id reported by the source
and is overwritten by the Telegram threading pass with the resolved root id.
`attachments=None` is modelled as `[]` (nothing downstream distinguishes them).
`timestamp` is the instant denoted by the ISO string (see module conventions). -/
structure Message where
  id : String
  text : Option String
  author : MUser
  timestamp : Int
  thread_id : Option String
  attachments : List Attachment
deriving DecidableEq, Repr

/-- Python truthiness of an optional string: `None` and `""` are falsy. -/
def truthyStr : Option String → Bool
  | none => false
  | some s => s ≠ ""

/-- `m.thread_id if m.thread_id else None`: demote a falsy value to `None`. -/
def detruthy (o : Option String) : Option String :=
  if truthyStr o then o else none

/-- Microseconds per calendar day. -/
def dayLen : Int := 86400000000

/-- Local calendar day (day number) of a UTC instant under timezone offset
`tz`: `msg_dt_aware.astimezone(user_tz)` truncated to its date. -/
def localDay (tz ts : Int) : Int := (ts + tz).fdiv dayLen

/-- First UTC instant of local day `d` (local midnight), i.e.
`day.astimezone(timezone.utc)` for a `day` at local 00:00. -/
def dayStartUtc (tz d : Int) : Int := d * dayLen - tz

/-- The list of local calendar days of the requested window, from
`start_dt_local` day to `last_day_local` day inclusive (the
`while current_day_local <= last_day_local` loop). -/
def windowDays (s l : Int) : List Int :=
  (List.range (l - s + 1).toNat).map (fun i => s + (i : Int))

/-- What the per-day cache file for one (account, chat, day) key can hold, as
seen by the reading code: no file at all; a file whose `open` raises `OSError`;
a file whose contents fail `json.load` (`json.JSONDecodeError`); a file whose
JSON records fail the `Message(**msg)` pydantic schema (`ValidationError`);
or a well-formed entry with its message list. -/
inductive CacheEntry
  | absent
  | ioError
  | corruptedJson
  | schemaInvalid
  | valid (msgs : List Message)
deriving DecidableEq, Repr

/-- Outcome of the per-day cache read in telegram_client.get_messages
(lines 166-184): a cache hit with its messages, a miss (day demoted to the
fetch list), or an uncaught exception.  A day is only consulted when
`is_cacheable`, i.e. strictly before local today; the `except` clause catches
`json.JSONDecodeError` only, so an `OSError` from `open` or a pydantic
`ValidationError` from `Message(**msg)` escapes. -/
inductive DayRead
  | hit (msgs : List Message)
  | miss
  | raised
deriving DecidableEq, Repr

/-- One iteration of the cache-scan loop for day `d`. -/
def readDay (today d : Int) (e : CacheEntry) : DayRead :=
  if d < today then
    match e with
    | .absent => .miss
    | .ioError => .raised
    | .corruptedJson => .miss
    | .schemaInvalid => .raised
    | .valid msgs => .hit msgs
  else
    .miss

/-- The Range Partitioner: scan the window's days against the cache, returning
(cache-hit messages in day order, miss days in day order), or propagating an
uncaught exception from a cache read (telegram_client.get_messages 161-184). -/
def partitionDays (cache : Int → CacheEntry) (today : Int) :
    List Int → Except Unit (List Message × List Int)
  | [] => .ok ([], [])
  | d :: ds =>
    match readDay today d (cache d) with
    | .raised => .error ()
    | .hit msgs =>
      (partitionDays cache today ds).map (fun p => (msgs ++ p.1, p.2))
    | .miss =>
      (partitionDays cache today ds).map (fun p => (p.1, d :: p.2))

/-- Total projection of `partitionDays` used to state hypotheses about its
result ((hits, miss days); `([], [])` in the exception case). -/
def partResult (cache : Int → CacheEntry) (today s l : Int) :
    List Message × List Int :=
  match partitionDays cache today (windowDays s l) with
  | .ok p => p
  | .error _ => ([], [])

/-- `CacheService.get` (src/services/cache.py 33-46): absent file is a miss;
`json.JSONDecodeError` **and** pydantic `ValidationError` are both caught and
demoted to a miss; an `OSError` from `open` still escapes. -/
def cacheService_get (e : CacheEntry) : Except Unit (Option (List Message)) :=
  match e with
  | .absent => .ok none
  | .ioError => .error ()
  | .corruptedJson => .ok none
  | .schemaInvalid => .ok none
  | .valid msgs => .ok (some msgs)

/-- `CacheService.set` (src/services/cache.py 48-60) over a store modelled as a
day-indexed association list: an empty message list is **not** written
("Not caching ... as there are no messages"); otherwise the entry is written
(last write wins on re-read; we append, lookups below take the last). -/
def cacheService_set (store : List (Int × List Message)) (day : Int)
    (messages : List Message) : List (Int × List Message) :=
  if messages = [] then store else store ++ [(day, messages)]

/-- Lookup in the modelled store (last write wins, like a file overwrite). -/
def storeLookup (store : List (Int × List Message)) (day : Int) :
    Option (List Message) :=
  (store.reverse.find? (fun e => e.1 = day)).map (fun e => e.2)

/-- Python `sorted(days)` (ascending).  Python's sort is a stable sort; a
stable sort's output is uniquely determined by the ordering, so the stable
`List.insertionSort` computes the same list Timsort does. -/
def sortInts (days : List Int) : List Int :=
  List.insertionSort (fun a b => a ≤ b) days

/-- First pass of `group_into_contiguous_ranges`: walk the sorted days,
extending the current run while the gap to the previous day is exactly one
day, else closing it.  `prev` is `days_sorted[i-1]`; `cur` is the run being
built (always nonempty, ending in `prev`). -/
def buildRangesAux (acc : List (List Int)) (cur : List Int) (prev : Int) :
    List Int → List (List Int)
  | [] => acc ++ [cur]
  | d :: ds =>
    if d - prev = 1 then buildRangesAux acc (cur ++ [d]) d ds
    else buildRangesAux (acc ++ [cur]) [d] d ds

/-- Structural worker for `splitChunks`: `fuel` bounds the number of slices;
`l.length` is always enough fuel when `1 ≤ k`, so the `fuel = 0` fallback is
unreachable at the call site. -/
def splitChunksGo (k : Nat) : Nat → List Int → List (List Int)
  | _, [] => []
  | 0, _ => []
  | fuel + 1, d :: rest => ((d :: rest).take k) :: splitChunksGo k fuel ((d :: rest).drop k)

/-- `date_range[i:i + max_chunk_size]` slicing loop of the second pass.
For `k = 0` Python's `range(0, n, 0)` raises `ValueError`; we return `[]`
there (every use below has `1 ≤ k`). -/
def splitChunks (k : Nat) (l : List Int) : List (List Int) :=
  if k = 0 then [] else splitChunksGo k l.length l

/-- `group_into_contiguous_ranges(days, max_chunk_size)` (identical helper in
telegram_client 187-226 and webex_client 181-220): sort the days, merge
adjacent days into contiguous runs, then split any run longer than
`max_chunk_size` into slices of that size. -/
def group_into_contiguous_ranges (days : List Int) (max_chunk_size : Nat) :
    List (List Int) :=
  match sortInts days with
  | [] => []
  | d :: ds =>
    let ranges := buildRangesAux [] [d] d ds
    ranges.foldl
      (fun acc r =>
        if r.length > max_chunk_size then acc ++ splitChunks max_chunk_size r
        else acc ++ [r])
      []

/-- Image-processing policy (`final_image_settings`): `enabled` flag,
`max_size_bytes` (`int(... or 0)`; 0 = unlimited), `allowed_mime_types`
(empty = unrestricted). -/
structure ImageSettings where
  enabled : Bool
  max_size_bytes : Int
  allowed_mime_types : List String
deriving DecidableEq, Repr

/-- The base64 alphabet, as characters. -/
def base64Chars : List Char :=
  "ABCDEFGHIJKLMNOPQRSTUVWXYZabcdefghijklmnopqrstuvwxyz0123456789+/".toList

/-- One base64 digit. -/
def b64Digit (n : Nat) : Char := base64Chars.getD n 'A'

/-- `base64.b64encode(data).decode("utf-8")` over a byte list. -/
def base64Encode : List Nat → String
  | [] => ""
  | [a] =>
    String.mk [b64Digit (a / 4), b64Digit (a % 4 * 16), '=', '=']
  | [a, b] =>
    String.mk [b64Digit (a / 4), b64Digit (a % 4 * 16 + b / 16),
      b64Digit (b % 16 * 4), '=']
  | a :: b :: c :: rest =>
    String.mk [b64Digit (a / 4), b64Digit (a % 4 * 16 + b / 16),
      b64Digit (b % 16 * 4 + c / 64), b64Digit (c % 64)] ++ base64Encode rest

/-- The magic-number MIME sniffing of `download_message_media`
(telegram_client 324-333): PNG, then JPEG, then GIF, then WEBP, else the
default `application/octet-stream`. -/
def sniffMime (data_bytes : List Nat) : String :=
  if data_bytes.take 4 = [0x89, 0x50, 0x4E, 0x47] then "image/png"
  else if data_bytes.take 3 = [0xFF, 0xD8, 0xFF] then "image/jpeg"
  else if data_bytes.take 6 = [0x47, 0x49, 0x46, 0x38, 0x39, 0x61]
      ∨ data_bytes.take 6 = [0x47, 0x49, 0x46, 0x38, 0x37, 0x61] then
    "image/gif"
  else if data_bytes.take 4 = [0x52, 0x49, 0x46, 0x46]
      ∧ ((data_bytes.drop 8).take 4 = [0x57, 0x45, 0x42, 0x50]) then
    "image/webp"
  else "application/octet-stream"

/-- `download_message_media(msg_info)` (telegram_client 307-345).
`has_media` is `msg_info['has_media']`; `media_download` is the outcome of
`shared_client.download_media` — `none` when the download (or anything in the
`try`) raises, which the `except` clause turns into `[]`.  An oversize payload
(`max_size > 0 and len > max_size`), a disallowed sniffed MIME type, and an
empty payload all yield `[]`; otherwise a single base64 attachment. -/
def download_message_media (settings : ImageSettings) (has_media : Bool)
    (media_download : Option (List Nat)) : List Attachment :=
  if ¬ has_media ∨ ¬ settings.enabled then []
  else
    match media_download with
    | none => []
    | some data_bytes =>
      let max_size := settings.max_size_bytes
      if max_size > 0 ∧ (data_bytes.length : Int) > max_size then []
      else if data_bytes.length > 0 then
        let mime := sniffMime data_bytes
        let allowed := settings.allowed_mime_types
        if allowed ≠ [] ∧ mime ∉ allowed then []
        else [{ mime_type := mime, data := base64Encode data_bytes }]
      else []

/-- A raw Telegram message as yielded by `client.iter_messages`, with the
fields the fetch loop reads.  `text` is `message.message or message.text`
(falsy = absent); `has_media` is `bool(message.media)`; `media_download` is
the deterministic outcome `download_media` would produce for it (`none` =
the download raises); `reply_to` is `str(message.reply_to.reply_to_msg_id)`
when present. -/
structure TRaw where
  id : String
  text : Option String
  senderId : String
  senderName : String
  ts : Int
  reply_to : Option String
  has_media : Bool
  media_download : Option (List Nat)
deriving DecidableEq, Repr

/-- Third-pass construction of a `Message` from a kept raw message
(telegram_client 367-378), with its media downloaded under the policy. -/
def toMessage (settings : ImageSettings) (r : TRaw) : Message :=
  { id := r.id
    text := r.text
    author := { id := r.senderId, name := r.senderName }
    timestamp := r.ts
    thread_id := r.reply_to
    attachments := download_message_media settings r.has_media r.media_download }

/-- The per-iteration message cap passed to `iter_messages(limit=500, ...)`
(telegram_client 272): at most 500 messages are yielded for one chunk. -/
def TELEGRAM_FETCH_LIMIT : Nat := 500

/-- `fetch_date_range(range_days, shared_client)` (telegram_client 243-381)
under a remote modelled as the full backward message stream `remote`
(newest first).  `entity = none` models `get_entity` raising inside the
chunk (lines 264-266): the chunk returns `([], range_days)`.
Otherwise `iter_messages(limit=500, offset_date=range_end_utc)` yields the
messages dated up to the chunk's end, newest first, capped at 500; the loop
breaks at the first message older than the chunk's start, skips messages with
neither text nor media, downloads media under the policy, and builds the
`Message` records.  The chunk's `range_days` are returned alongside. -/
def fetch_date_range (tz : Int) (settings : ImageSettings)
    (remote : List TRaw) (entity : Option Unit) (range_days : List Int) :
    List Message × List Int :=
  match entity with
  | none => ([], range_days)
  | some _ =>
    let range_start_utc := dayStartUtc tz (range_days.headD 0)
    let range_end_utc := dayStartUtc tz (range_days.getLastD 0 + 1) - 1
    let iterated :=
      (remote.filter (fun r => decide (r.ts ≤ range_end_utc))).take
        TELEGRAM_FETCH_LIMIT
    let kept := iterated.takeWhile (fun r => decide (range_start_utc ≤ r.ts))
    let content := kept.filter (fun r => truthyStr r.text || r.has_media)
    (content.map (toMessage settings), range_days)

/-- The combine-and-deduplicate loop over `asyncio.gather` results
(telegram_client 417-433): skip chunks that raised; for the others append each
message whose id was not seen yet and extend the fetched-day list.  State is
(kept messages, seen ids, fetched days). -/
def telegramCombine (results : List (Except Unit (List Message × List Int))) :
    List Message × List Int :=
  let final := results.foldl
    (fun (acc : List Message × List String × List Int) result =>
      match result with
      | .error _ => acc
      | .ok (messages, range_days) =>
        let step := messages.foldl
          (fun (a : List Message × List String) msg =>
            if msg.id ∈ a.2 then a else (a.1 ++ [msg], a.2 ++ [msg.id]))
          (acc.1, acc.2.1)
        (step.1, step.2, acc.2.2 ++ range_days))
    ([], [], [])
  (final.1, final.2.2)

/-- Recursive form of first-seen-wins deduplication by id, used to reason
about `telegramCombine`. -/
def dedupGo (seen : List String) : List Message → List Message
  | [] => []
  | m :: ms =>
    if m.id ∈ seen then dedupGo seen ms else m :: dedupGo (m.id :: seen) ms

/-- `d.get(k)` / `k in d` for a Python dict modelled as an insertion-ordered
association list. -/
def alGet {κ α : Type} [DecidableEq κ] (t : List (κ × α)) (k : κ) : Option α :=
  (t.find? (fun e => e.1 = k)).map (fun e => e.2)

/-- `d[k] = []` if `k` not yet present. -/
def alEnsure {κ α : Type} [DecidableEq κ] (t : List (κ × List α)) (k : κ) :
    List (κ × List α) :=
  match alGet t k with
  | some _ => t
  | none => t ++ [(k, [])]

/-- `d[k].append(x)` on an existing key (update in place; Python dict keys
are unique, so updating the first matching entry is the dict semantics). -/
def alPush {κ α : Type} [DecidableEq κ] : List (κ × List α) → κ → α →
    List (κ × List α)
  | [], _, _ => []
  | e :: t, k, x =>
    if e.1 = k then (e.1, e.2 ++ [x]) :: t else e :: alPush t k x

/-- Keys of the modelled dict. -/
def alKeys {κ α : Type} (t : List (κ × α)) : List κ := t.map Prod.fst

/-- A message stripped of its `thread_id` (everything the threading pass
never touches). -/
def stripThread (m : Message) : Message := { m with thread_id := none }

/-- `del d[k]`. -/
def alErase {κ α : Type} [DecidableEq κ] (t : List (κ × α)) (k : κ) :
    List (κ × α) :=
  t.filter (fun e => ¬ e.1 = k)

/-- `d.values()` (key-insertion order). -/
def alValues {κ α : Type} (t : List (κ × α)) : List α :=
  t.map (fun e => e.2)

/-- The Cache Writer's grouping dict (telegram_client 438-447):
`grouped_by_day_local`, keyed by each message's **own** local calendar day,
values in fetch order. -/
def grouped_by_day_local (tz : Int) (newMsgs : List Message) :
    List (Int × List Message) :=
  newMsgs.foldl
    (fun acc msg =>
      let msg_day_local := localDay tz msg.timestamp
      alPush (alEnsure acc msg_day_local) msg_day_local msg)
    []

/-- The messages of `newMsgs` falling on local day `d`, in order: what
`grouped_by_day_local.get(d, [])` returns (proved below). -/
def groupForDay (tz : Int) (newMsgs : List Message) (d : Int) : List Message :=
  newMsgs.filter (fun m => localDay tz m.timestamp = d)

/-- The Cache Writer's write set (telegram_client 449-455): one entry per
fetched day strictly before local today, holding
`grouped_by_day_local.get(day_to_cache_local, [])` — possibly empty.
Returned as (day, contents) pairs in loop order. -/
def telegramCacheWrites (tz today : Int) (newMsgs : List Message)
    (all_fetched_ranges : List Int) : List (Int × List Message) :=
  (all_fetched_ranges.filter (fun d => decide (d < today))).map
    (fun d => (d, (alGet (grouped_by_day_local tz newMsgs) d).getD []))

/-- `by_id = {m.id: m for m in all_messages}` read back at key `i`: a Python
dict comprehension keeps the **last** message with a given id. -/
def findById (l : List Message) (i : String) : Option Message :=
  l.reverse.find? (fun m => m.id = i)

/-- `reply_to.get(current)` (telegram_client 458-460 and 470): the stored
value is `m.thread_id if m.thread_id else None`, and `get` also returns `None`
for an unknown id; a falsy stored value is falsy to the caller either way. -/
def replyToFn (l : List Message) (i : String) : Option String :=
  match findById l i with
  | none => none
  | some m => detruthy m.thread_id

/-- `parent not in by_id`. -/
def hasId (l : List Message) (i : String) : Bool :=
  l.any (fun m => m.id = i)

/-- The `resolve_root` while-loop (telegram_client 462-476), as fuel-indexed
recursion on the functions the loop consults.  Each non-returning iteration
adds the current id to `visited` and moves to a parent that is a key of
`by_id`, so `|by_id| + 1` fuel always suffices; the fuel-exhausted branch is
unreachable at the call site below.  `last_known` mirrors the source variable;
it always equals `current` at every return site (both are set to `parent`
together at the loop's end), and is returned for an out-of-range parent. -/
def resolve_root_core (reply_to : String → Option String)
    (present : String → Bool) :
    Nat → List String → String → String → String × Bool
  | 0, _, _, current => (current, false)
  | fuel + 1, visited, last_known, current =>
    if current ∈ visited then (current, false)
    else
      match reply_to current with
      | none => (current, false)
      | some parent =>
        if present parent then
          resolve_root_core reply_to present fuel (current :: visited)
            parent parent
        else (last_known, true)

/-- `resolve_root(start_id)` over the message set `l`. -/
def resolve_root (l : List Message) (start_id : String) : String × Bool :=
  resolve_root_core (replyToFn l) (hasId l) (l.length + 1) [] start_id start_id

/-- The root-assignment pass (telegram_client 478-483): every message with a
truthy `thread_id` gets it overwritten by its resolved root id.  The loop
mutates the message objects, but `resolve_root` only consults the `reply_to`
dict and the `by_id` key set captured beforehand, so the pass is a pure map. -/
def updateRoots (l : List Message) : List Message :=
  l.map (fun m =>
    if truthyStr m.thread_id then
      { m with thread_id := some (resolve_root l m.id).1 }
    else m)

/-- The `threads` dict: an association list in key-insertion order. -/
abbrev ThreadMap := List (String × List Message)

/-- Chronological in-place sort `messages.sort(key=lambda m: m.timestamp)`:
a stable sort on the modelled instants (see `sortInts` on stability). -/
def sortByTs (l : List Message) : List Message :=
  List.insertionSort (fun a b => a.timestamp ≤ b.timestamp) l

/-- The Telegram grouping loop (telegram_client 485-498): a message with a
truthy (already root-resolved) `thread_id` first ensures its root's bucket
exists, then joins it — unless it **is** its root, in which case it is a
top-level message; messages with falsy `thread_id` are top-level. -/
def classifyTelegramStep (acc : ThreadMap × List Message) (msg : Message) :
    ThreadMap × List Message :=
  match msg.thread_id with
  | some parent_id =>
    if parent_id ≠ "" then
      let t := alEnsure acc.1 parent_id
      if msg.id ≠ parent_id then (alPush t parent_id msg, acc.2)
      else (t, acc.2 ++ [msg])
    else (acc.1, acc.2 ++ [msg])
  | none => (acc.1, acc.2 ++ [msg])

/-- The grouping loop itself. -/
def classifyTelegram (l : List Message) : ThreadMap × List Message :=
  l.foldl classifyTelegramStep ([], [])

/-- `t[0].timestamp` for the orphan-tail sort key (telegram_client 513);
Python would raise `IndexError` on an empty bucket, which is unreachable
there (every empty bucket is keyed by a top-level message's id and was
deleted during emission). -/
def earliestTs (t : List Message) : Int :=
  match t with
  | [] => 0
  | m :: _ => m.timestamp

/-- One step of the emission loop shared by both clients (telegram_client
500-515, webex_client 439-458): sort each bucket chronologically, sort the
top-level messages chronologically, emit each top-level message followed by
its bucket (deleting it), then append the leftover buckets.  `tailOf`
renders the two clients' differing leftover orders. -/
def emitStep (acc : List Message × ThreadMap) (top_msg : Message) :
    List Message × ThreadMap :=
  match alGet acc.2 top_msg.id with
  | some thr => (acc.1 ++ top_msg :: thr, alErase acc.2 top_msg.id)
  | none => (acc.1 ++ [top_msg], acc.2)

/-- The emission loop itself (see `emitStep`). -/
def emitThreads (tailOf : ThreadMap → List (List Message))
    (threads : ThreadMap) (top_level_messages : List Message) :
    List Message :=
  let threadsSorted : ThreadMap :=
    threads.map (fun e => (e.1, sortByTs e.2))
  let topsSorted := sortByTs top_level_messages
  let final := topsSorted.foldl emitStep ([], threadsSorted)
  final.1 ++ (tailOf final.2).flatten

/-- Telegram's orphan tail (513-515): the leftover buckets sorted by their
first (earliest, post-sort) member's timestamp. -/
def telegramTail (t : ThreadMap) : List (List Message) :=
  List.insertionSort (fun a b => earliestTs a ≤ earliestTs b) (alValues t)

/-- The full Telegram threading/ordering pass over the merged message list
(telegram_client 457-518): resolve roots, group, sort, emit. -/
def threadMessages (all_messages : List Message) : List Message :=
  let resolved := updateRoots all_messages
  let (threads, top_level_messages) := classifyTelegram resolved
  emitThreads telegramTail threads top_level_messages

/-- The Webex grouping loop (webex_client 429-436): a message with truthy
`thread_id` (the source-reported `parentId`, never rewritten) joins that
bucket; else it is top-level. -/
def classifyWebexStep (acc : ThreadMap × List Message) (msg : Message) :
    ThreadMap × List Message :=
  if truthyStr msg.thread_id then
    let parent_id := msg.thread_id.getD ""
    (alPush (alEnsure acc.1 parent_id) parent_id msg, acc.2)
  else (acc.1, acc.2 ++ [msg])

/-- The grouping loop itself. -/
def classifyWebex (l : List Message) : ThreadMap × List Message :=
  l.foldl classifyWebexStep ([], [])

/-- Webex's orphan tail (457-458): `for thread_id in sorted(threads.keys())`
— leftover buckets in ascending **key** order. -/
def webexTail (t : ThreadMap) : List (List Message) :=
  (List.insertionSort (fun a b => a.1 ≤ b.1) t).map (fun e => e.2)

/-- The full Webex threading/ordering pass (webex_client 425-460). -/
def webexThreadMessages (all_messages : List Message) : List Message :=
  let (threads, top_level_messages) := classifyWebex all_messages
  emitThreads webexTail threads top_level_messages

/-- The full Telegram `get_messages` pipeline for one synchronization run
(telegram_client 144-518), with the external world as parameters: the per-day
cache state, the local-today boundary, the requested window `[s, l]` (local
day numbers), the chunk size (`parallel_fetch_chunk_days`), the image policy,
the outcome of the one-time `get_entity` resolution (lines 383-397; `none`
models it raising, which returns `[]`), and the remote backward message
stream.  Chunks all run `fetch_date_range` against the same shared client;
their results are combined, deduplicated, merged with the cache hits, and
threaded.  Cache writing is a side effect modelled by `telegramCacheWrites`.
An uncaught exception while reading a cache entry propagates (`.error`). -/
def telegramRun (cache : Int → CacheEntry) (tz today s l : Int) (k : Nat)
    (settings : ImageSettings) (entity : Option Unit) (remote : List TRaw) :
    Except Unit (List Message) :=
  match partitionDays cache today (windowDays s l) with
  | .error e => .error e
  | .ok (all_messages, dates_to_fetch) =>
    if dates_to_fetch.isEmpty then .ok (threadMessages all_messages)
    else
      match entity with
      | none => .ok []
      | some _ =>
        let date_ranges := group_into_contiguous_ranges dates_to_fetch k
        let fetch_results := date_ranges.map
          (fun r => Except.ok (fetch_date_range tz settings remote (some ()) r))
        let combined := telegramCombine fetch_results
        .ok (threadMessages (all_messages ++ combined.1))

/-- Whether the Telegram cache writer runs at all (`if enable_caching:`,
line 437), producing the write set of `telegramCacheWrites`. -/
def telegramWrites (enable_caching : Bool) (tz today : Int)
    (newMsgs : List Message) (all_fetched_ranges : List Int) :
    List (Int × List Message) :=
  if enable_caching then telegramCacheWrites tz today newMsgs all_fetched_ranges
  else []

/-- A raw Webex message dict as returned by the API: `msg.get('id')` etc.,
`none` modelling an absent key; `created` is the instant of the ISO string. -/
structure WRaw where
  id : Option String
  text : Option String
  personId : Option String
  personEmail : Option String
  created : Int
  parentId : Option String
  files : List String
deriving DecidableEq, Repr

/-- The Webex combine-and-deduplicate loop over `asyncio.gather` results
(webex_client 308-328): chunks that raised are skipped; a message is kept iff
its id is truthy (`if msg_id and ...`) **and** unseen. -/
def webexCombine (results : List (Except Unit (List WRaw × List Int))) :
    List WRaw × List Int :=
  let final := results.foldl
    (fun (acc : List WRaw × List String × List Int) result =>
      match result with
      | .error _ => acc
      | .ok (messages, range_days) =>
        let step := messages.foldl
          (fun (a : List WRaw × List String) msg =>
            match msg.id with
            | some msg_id =>
              if msg_id ≠ "" ∧ msg_id ∉ a.2 then
                (a.1 ++ [msg], a.2 ++ [msg_id])
              else a
            | none => a)
          (acc.1, acc.2.1)
        (step.1, step.2, acc.2.2 ++ range_days))
    ([], [], [])
  (final.1, final.2.2)

/-- `_download_and_encode_file(file_url, settings)` (webex_client 54-97).
`head` is the HEAD probe's (Content-Type, int(Content-Length)) — `none` when
the probe raises (HTTP error / anything in the `try`); `body` is the GET
payload, `none` when that request raises.  Disabled policy skips entirely;
a disallowed declared type or a declared length over the cap rejects before
downloading; every caught exception yields `None`. -/
def download_and_encode_file (settings : ImageSettings)
    (head : Option (String × Int)) (body : Option (List Nat)) :
    Option Attachment :=
  if ¬ settings.enabled then none
  else
    match head with
    | none => none
    | some ct =>
      let content_type := ct.1
      let content_length := ct.2
      if settings.allowed_mime_types ≠ []
          ∧ content_type ∉ settings.allowed_mime_types then none
      else if settings.max_size_bytes > 0
          ∧ content_length > settings.max_size_bytes then none
      else
        match body with
        | none => none
        | some bytes =>
          some { mime_type := content_type, data := base64Encode bytes }

/-- The Webex cache writer (webex_client 413-423): for every fetched day
strictly before local today, with caching enabled, write that day's group of
processed messages (grouped by each message's own local day; possibly
empty). -/
def webexWrites (enable_caching : Bool) (tz today : Int)
    (processed : List Message) (all_fetched_ranges : List Int) :
    List (Int × List Message) :=
  (all_fetched_ranges.filter
      (fun d => decide (d < today) && enable_caching)).map
    (fun d => (d, (alGet (grouped_by_day_local tz processed) d).getD []))

/-- All ways to insert an element into a list (helper for `allPerms`). -/
def insertEverywhere (a : Message) : List Message → List (List Message)
  | [] => [[a]]
  | b :: l => (a :: b :: l) :: (insertEverywhere a l).map (fun t => b :: t)

/-- All permutations of a message list (structural, evaluable; used to state
claims over every arrival order of a fixed message set). -/
def allPerms : List Message → List (List Message)
  | [] => [[]]
  | a :: l => ((allPerms l).map (insertEverywhere a)).flatten

/-- The successfully fetched (message list, day list) chunk results among the
`asyncio.gather` outcomes: the ones the combine loop does not skip. -/
def okResults (results : List (Except Unit (List Message × List Int))) :
    List (List Message × List Int) :=
  results.filterMap Except.toOption

/-- Webex counterpart of `okResults`. -/
def wOkResults (results : List (Except Unit (List WRaw × List Int))) :
    List (List WRaw × List Int) :=
  results.filterMap Except.toOption

/-- Recursive form of the Webex first-seen-wins deduplication: a raw message
survives iff its id is truthy and unseen (webex_client 320-324). -/
def wDedupGo (seen : List String) : List WRaw → List WRaw
  | [] => []
  | m :: ms =>
    match m.id with
    | some msg_id =>
      if msg_id ≠ "" ∧ msg_id ∉ seen then m :: wDedupGo (msg_id :: seen) ms
      else wDedupGo seen ms
    | none => wDedupGo seen ms

/-- The per-message attachment list assembled by the parallel download pass
(webex_client 363-388): one `_download_and_encode_file` call per file URL
(`head`/`body` give each URL's deterministic probe and payload outcomes);
results that are `None` — every caught failure or policy rejection — are
dropped from the message's list. -/
def webexAttachments (settings : ImageSettings)
    (head : String → Option (String × Int))
    (body : String → Option (List Nat)) (files : List String) :
    List Attachment :=
  files.filterMap (fun url => download_and_encode_file settings (head url) (body url))

/-- The Webex third-pass message construction (webex_client 391-411): a
`Message` is created **only** `if msg_raw.get('text') or attachments` — a
raw whose text is falsy and whose every attachment failed or was rejected
is dropped from the output entirely.  `msg_raw['id']` is read directly (the
merge guard already ensured it is truthy, so `getD ""` is never exercised);
`attachments if attachments else None` is modelled as the plain list. -/
def webexBuildMessage (settings : ImageSettings)
    (head : String → Option (String × Int))
    (body : String → Option (List Nat)) (msg_raw : WRaw) : Option Message :=
  let attachments := webexAttachments settings head body msg_raw.files
  if truthyStr msg_raw.text ∨ attachments ≠ [] then
    some { id := msg_raw.id.getD ""
           text := msg_raw.text
           author := { id := msg_raw.personId.getD "unknown",
                       name := msg_raw.personEmail.getD "Unknown User" }
           timestamp := msg_raw.created
           thread_id := msg_raw.parentId
           attachments := attachments }
  else none

/-- The Webex pagination loop (webex_client 247-285) over the successive
`api.get_messages` batch outcomes.  A batch whose fetch raises is caught and
**breaks** the loop, keeping what was already accumulated (255-260); an
empty batch breaks; otherwise the batch's in-window messages are kept and
pagination continues unless the batch was short (`len < 1000`) or its oldest
message passed the range start. -/
def webex_fetch_go (range_start range_end : Int) :
    List (Except Unit (List WRaw)) → List WRaw → List WRaw
  | [], acc => acc
  | b :: rest, acc =>
    match b with
    | .error _ => acc
    | .ok [] => acc
    | .ok (m :: ms) =>
      let acc2 := acc ++ (m :: ms).filter
        (fun w => decide (range_start ≤ w.created)
          && decide (w.created ≤ range_end))
      if (m :: ms).length < 1000 ∨ ((m :: ms).getLastD m).created ≤ range_start
      then acc2
      else webex_fetch_go range_start range_end rest acc2

/-- Webex `fetch_date_range(range_days)` (webex_client 235-287): page
backwards from the chunk's end while `oldest > range_start` (`oldest` starts
at the range end).  Whatever ends the loop — completion, an empty batch, or
a **caught batch failure** — the chunk returns its accumulated messages
together with all of its `range_days`, always as a success. -/
def webex_fetch_date_range (tz : Int)
    (batches : List (Except Unit (List WRaw))) (range_days : List Int) :
    List WRaw × List Int :=
  let range_start_utc := dayStartUtc tz (range_days.headD 0)
  let range_end_utc := dayStartUtc tz (range_days.getLastD 0 + 1) - 1
  if range_start_utc < range_end_utc then
    (webex_fetch_go range_start_utc range_end_utc batches [], range_days)
  else ([], range_days)

/-! ### Concrete instances used by the claim theorems, their witnesses and
counterexamples -/

/-- A sample author. -/
def exUser : MUser := { id := "1", name := "alice" }

/-- Scenario of §8 "Thread grouping": `A(root)`. -/
def exA : Message :=
  { id := "A", text := some "a", author := exUser, timestamp := 1,
    thread_id := none, attachments := [] }

/-- `B(reply_to=A)`. -/
def exB : Message :=
  { id := "B", text := some "b", author := exUser, timestamp := 2,
    thread_id := some "A", attachments := [] }

/-- `C(reply_to=B)`. -/
def exC : Message :=
  { id := "C", text := some "c", author := exUser, timestamp := 3,
    thread_id := some "B", attachments := [] }

/-- `D(root)`. -/
def exD : Message :=
  { id := "D", text := some "d", author := exUser, timestamp := 4,
    thread_id := none, attachments := [] }

/-- `X(reply_to="missing-id")`, the §8 orphan scenario. -/
def exX : Message :=
  { id := "X", text := some "x", author := exUser, timestamp := 1,
    thread_id := some "missing-id", attachments := [] }

/-- An unrelated top-level message later than `exX`. -/
def exE : Message :=
  { id := "E", text := some "e", author := exUser, timestamp := 2,
    thread_id := none, attachments := [] }

/-- A raw Webex message with a duplicated real id `M7`. -/
def exWM7 : WRaw :=
  { id := some "M7", text := some "hi", personId := none, personEmail := none,
    created := 0, parentId := none, files := [] }

/-- A raw Webex message whose id is the empty string (falsy). -/
def exWEmpty : WRaw :=
  { id := some "", text := some "hi", personId := none, personEmail := none,
    created := 0, parentId := none, files := [] }

/-- Disabled image policy. -/
def exNoImages : ImageSettings :=
  { enabled := false, max_size_bytes := 0, allowed_mime_types := [] }

/-- A Telegram service message (no text, no media) on local day 7, used to
exhaust the 500-message fetch cap: the `i`-th newest, timestamped just below
the end of day 7. -/
def cexSvcRaw (i : Nat) : TRaw :=
  { id := toString (1000 + i), text := none, senderId := "s", senderName := "s",
    ts := 8 * dayLen - 1 - (i : Int), reply_to := none, has_media := false,
    media_download := none }

/-- A real text message at the very start of local day 0. -/
def cexRealRaw : TRaw :=
  { id := "real", text := some "hello", senderId := "s", senderName := "s",
    ts := 0, reply_to := none, has_media := false, media_download := none }

/-- A remote stream (newest first): 500 service messages on day 7, then the
one real message on day 0. -/
def cexRemote : List TRaw := (List.range 500).map cexSvcRaw ++ [cexRealRaw]

/-- The real message as the fetch constructs it. -/
def cexRealMsg : Message := toMessage exNoImages cexRealRaw

/-- Enabled policy with a 10-byte size cap and no type restriction. -/
def exCap10 : ImageSettings :=
  { enabled := true, max_size_bytes := 10, allowed_mime_types := [] }

/-- Enabled policy with no size cap (`0` = unlimited) and no type
restriction. -/
def exUnlimited : ImageSettings :=
  { enabled := true, max_size_bytes := 0, allowed_mime_types := [] }

/-- An 11-byte PNG payload. -/
def exPng11 : List Nat := [137, 80, 78, 71, 0, 0, 0, 0, 0, 0, 0]

/-- A 4-byte PNG payload. -/
def exPng4 : List Nat := [137, 80, 78, 71]

/-- The `i`-th newest raw of a full 1000-message Webex batch on local day 4
(timestamped just below the end of day 4, strictly descending). -/
def wPart (i : Nat) : WRaw :=
  { id := some (toString (2000 + i)), text := some "m", personId := none,
    personEmail := none, created := 5 * dayLen - 1 - (i : Int),
    parentId := none, files := [] }

/-- A full (length-1000) Webex batch: pagination continues after it. -/
def wBatch1000 : List WRaw := (List.range 1000).map wPart

/-- An older raw at the very start of local day 3, reached only by the
second batch. -/
def wExtra : WRaw :=
  { id := some "extra", text := some "old", personId := none,
    personEmail := none, created := 3 * dayLen, parentId := none,
    files := ["old.png"] }

/-- A text-less Webex raw carrying one file. -/
def wNoText : WRaw :=
  { id := some "w9", text := none, personId := none, personEmail := none,
    created := 0, parentId := none, files := ["big.png"] }

/-- A download environment whose every HEAD probe reports an 11-byte
`image/png` and whose every GET returns the 11-byte payload. -/
def exHead11 : String → Option (String × Int) := fun _ => some ("image/png", 11)

/-- See `exHead11`. -/
def exBody11 : String → Option (List Nat) := fun _ => some exPng11

/-- A text-less Telegram raw whose media payload is the same 11-byte PNG. -/
def cexTgNoText : TRaw :=
  { id := "t9", text := none, senderId := "s", senderName := "s", ts := 0,
    reply_to := none, has_media := true, media_download := some exPng11 }


/-- The bucket key a (root-resolved) message contributes to in the Telegram
grouping loop: its truthy `thread_id`, if any (characterization used in the
proofs). -/
def resolvedParent (m : Message) : Option String :=
  match m.thread_id with
  | some p => if p ≠ "" then some p else none
  | none => none

/-- Whether the grouping loop sends `m` to `top_level_messages`: falsy
`thread_id`, or a thread id equal to its own id (self-root). -/
def isTopMsg (m : Message) : Bool :=
  match m.thread_id with
  | some p => if p ≠ "" then m.id = p else true
  | none => true

/-- The members of bucket `p` (root `p`'s descendants), in list order. -/
def bucketOf (u : List Message) (p : String) : List Message :=
  u.filter (fun m => resolvedParent m = some p && ¬ m.id = p)

/-- Whether the grouping loop ever creates bucket `p`. -/
def keyMade (u : List Message) (p : String) : Bool :=
  u.any (fun m => resolvedParent m = some p)

/-! ## General lemmas about first-seen-wins deduplication -/

theorem dedupGo_congr {s1 s2 : List String} (h : ∀ x, x ∈ s1 ↔ x ∈ s2) :
    ∀ l : List Message, dedupGo s1 l = dedupGo s2 l := by
  intro l
  induction l generalizing s1 s2 with
  | nil => rfl
  | cons m ms ih =>
    by_cases hm : m.id ∈ s1
    · rw [dedupGo, if_pos hm, dedupGo, if_pos ((h m.id).mp hm)]
      exact ih h
    · rw [dedupGo, if_neg hm, dedupGo, if_neg (fun c => hm ((h m.id).mpr c))]
      have h' : ∀ x, x ∈ m.id :: s1 ↔ x ∈ m.id :: s2 := by
        intro x
        simp only [List.mem_cons, h x]
      exact congrArg (m :: ·) (ih h')

theorem dedupGo_append (s : List String) (l1 l2 : List Message) :
    dedupGo s (l1 ++ l2)
      = dedupGo s l1 ++ dedupGo (s ++ (dedupGo s l1).map Message.id) l2 := by
  induction l1 generalizing s with
  | nil =>
    simp only [List.nil_append, dedupGo, List.map_nil, List.append_nil]
  | cons m ms ih =>
    by_cases hm : m.id ∈ s
    · rw [List.cons_append, dedupGo, if_pos hm, dedupGo, if_pos hm]
      exact ih s
    · rw [List.cons_append, dedupGo, if_neg hm, dedupGo, if_neg hm,
        List.map_cons, List.cons_append, ih (m.id :: s)]
      refine congrArg (m :: ·) (congrArg _ ?_)
      apply dedupGo_congr
      intro x
      simp only [List.mem_cons, List.mem_append]
      tauto

theorem dedupGo_filter_id (i : String) :
    ∀ (l : List Message) (s : List String),
      (dedupGo s l).filter (fun m => m.id = i)
        = if i ∈ s then [] else (l.filter (fun m => m.id = i)).take 1 := by
  intro l
  induction l with
  | nil => intro s; cases h : decide (i ∈ s) <;> simp [dedupGo]
  | cons m ms ih =>
    intro s
    by_cases hm : m.id ∈ s
    · rw [dedupGo, if_pos hm, ih s]
      by_cases hi : i ∈ s
      · simp [hi]
      · have hmi : ¬ m.id = i := fun c => hi (c ▸ hm)
        simp [hi, List.filter_cons, hmi]
    · rw [dedupGo, if_neg hm]
      by_cases hmi : m.id = i
      · have hi : ¬ i ∈ s := fun c => hm (hmi ▸ c)
        rw [List.filter_cons_of_pos (by simp [hmi]), if_neg hi,
          List.filter_cons_of_pos (by simp [hmi]), ih (m.id :: s),
          if_pos (by simp [hmi])]
        simp
      · rw [List.filter_cons_of_neg (by simp [hmi]),
          List.filter_cons_of_neg (by simp [hmi]), ih (m.id :: s)]
        have : (i ∈ m.id :: s) ↔ (i ∈ s) := by
          simp only [List.mem_cons]
          constructor
          · rintro (h | h)
            · exact absurd h.symm hmi
            · exact h
          · exact Or.inr
        by_cases hi : i ∈ s <;> simp [hi, this]

theorem wDedupGo_filter_id (i : String) (hi : i ≠ "") :
    ∀ (l : List WRaw) (s : List String),
      (wDedupGo s l).filter (fun m => m.id = some i)
        = if i ∈ s then [] else (l.filter (fun m => m.id = some i)).take 1 := by
  intro l
  induction l with
  | nil => intro s; cases h : decide (i ∈ s) <;> simp [wDedupGo]
  | cons m ms ih =>
    intro s
    match hid : m.id with
    | none =>
      rw [wDedupGo, hid, ih s]
      have hmi : ¬ m.id = some i := by rw [hid]; simp
      by_cases his : i ∈ s <;> simp [his, List.filter_cons, hmi]
    | some msg_id =>
      simp only [wDedupGo, hid]
      by_cases hkeep : msg_id ≠ "" ∧ msg_id ∉ s
      · rw [if_pos hkeep]
        by_cases hmi : msg_id = i
        · have hnis : ¬ i ∈ s := fun c => hkeep.2 (hmi ▸ c)
          have hmid : m.id = some i := by rw [hid, hmi]
          rw [List.filter_cons_of_pos (by simp [hmid]), if_neg hnis,
            List.filter_cons_of_pos (by simp [hmid]), ih (msg_id :: s),
            if_pos (by simp [hmi])]
          simp
        · have hmid : ¬ m.id = some i := by rw [hid]; simp [hmi]
          rw [List.filter_cons_of_neg (by simp [hmid]),
            List.filter_cons_of_neg (by simp [hmid]), ih (msg_id :: s)]
          have hmem : (i ∈ msg_id :: s) ↔ (i ∈ s) := by
            simp only [List.mem_cons]
            constructor
            · rintro (h | h)
              · exact absurd h.symm hmi
              · exact h
            · exact Or.inr
          by_cases his : i ∈ s <;> simp [his, hmem]
      · rw [if_neg hkeep, ih s]
        rcases Decidable.not_and_iff_or_not.mp hkeep with h1 | h2
        · have he : msg_id = "" := Decidable.not_not.mp h1
          have hmid : ¬ m.id = some i := by
            rw [hid, he]
            intro c
            exact hi (Option.some.inj c).symm
          by_cases his : i ∈ s <;> simp [his, List.filter_cons, hmid]
        · have hms : msg_id ∈ s := Decidable.not_not.mp h2
          by_cases hmi : msg_id = i
          · have his : i ∈ s := hmi ▸ hms
            simp [his]
          · have hmid : ¬ m.id = some i := by rw [hid]; simp [hmi]
            by_cases his : i ∈ s <;> simp [his, List.filter_cons, hmid]

theorem dedup_fold_eq (messages : List Message) :
    ∀ (m0 : List Message) (s0 : List String),
      messages.foldl
        (fun (a : List Message × List String) msg =>
          if msg.id ∈ a.2 then a else (a.1 ++ [msg], a.2 ++ [msg.id]))
        (m0, s0)
      = (m0 ++ dedupGo s0 messages,
         s0 ++ (dedupGo s0 messages).map Message.id) := by
  induction messages with
  | nil => intro m0 s0; simp [dedupGo]
  | cons m ms ih =>
    intro m0 s0
    by_cases hm : m.id ∈ s0
    · rw [List.foldl_cons]
      simp only [if_pos hm]
      rw [ih m0 s0, dedupGo, if_pos hm]
    · rw [List.foldl_cons]
      simp only [if_neg hm]
      rw [ih (m0 ++ [m]) (s0 ++ [m.id]), dedupGo, if_neg hm]
      have hcongr : dedupGo (s0 ++ [m.id]) ms = dedupGo (m.id :: s0) ms := by
        apply dedupGo_congr
        intro x
        simp only [List.mem_append, List.mem_singleton, List.mem_cons]
        tauto
      rw [hcongr]
      simp [List.append_assoc]

theorem telegramCombine_fold (results : List (Except Unit (List Message × List Int))) :
    ∀ (m0 : List Message) (s0 : List String) (d0 : List Int),
      results.foldl
        (fun (acc : List Message × List String × List Int) result =>
          match result with
          | .error _ => acc
          | .ok (messages, range_days) =>
            let step := messages.foldl
              (fun (a : List Message × List String) msg =>
                if msg.id ∈ a.2 then a else (a.1 ++ [msg], a.2 ++ [msg.id]))
              (acc.1, acc.2.1)
            (step.1, step.2, acc.2.2 ++ range_days))
        (m0, s0, d0)
      = (m0 ++ dedupGo s0 ((okResults results).map Prod.fst).flatten,
         s0 ++ (dedupGo s0 ((okResults results).map Prod.fst).flatten).map Message.id,
         d0 ++ ((okResults results).map Prod.snd).flatten) := by
  induction results with
  | nil => intro m0 s0 d0; simp [okResults, dedupGo]
  | cons r rs ih =>
    intro m0 s0 d0
    match r with
    | .error e =>
      rw [List.foldl_cons]
      have : okResults (Except.error e :: rs) = okResults rs := by
        simp [okResults, Except.toOption]
      rw [this] at *
      exact ih m0 s0 d0
    | .ok (messages, range_days) =>
      rw [List.foldl_cons]
      have hok : okResults (Except.ok (messages, range_days) :: rs)
          = (messages, range_days) :: okResults rs := by
        simp [okResults, Except.toOption]
      rw [hok]
      simp only [dedup_fold_eq messages m0 s0]
      rw [ih]
      have hflat : ((((messages, range_days) :: okResults rs)).map Prod.fst).flatten
          = messages ++ ((okResults rs).map Prod.fst).flatten := by
        simp
      rw [hflat, dedupGo_append]
      simp [List.append_assoc]

theorem telegramCombine_eq (results : List (Except Unit (List Message × List Int))) :
    telegramCombine results
      = (dedupGo [] ((okResults results).map Prod.fst).flatten,
         ((okResults results).map Prod.snd).flatten) := by
  unfold telegramCombine
  rw [telegramCombine_fold results [] [] []]
  simp

theorem wDedupGo_congr {s1 s2 : List String} (h : ∀ x, x ∈ s1 ↔ x ∈ s2) :
    ∀ l : List WRaw, wDedupGo s1 l = wDedupGo s2 l := by
  intro l
  induction l generalizing s1 s2 with
  | nil => rfl
  | cons m ms ih =>
    match hid : m.id with
    | none => simp only [wDedupGo, hid]; exact ih h
    | some msg_id =>
      simp only [wDedupGo, hid]
      by_cases hk : msg_id ≠ "" ∧ msg_id ∉ s1
      · rw [if_pos hk, if_pos ⟨hk.1, fun c => hk.2 ((h msg_id).mpr c)⟩]
        have h' : ∀ x, x ∈ msg_id :: s1 ↔ x ∈ msg_id :: s2 := by
          intro x
          simp only [List.mem_cons, h x]
        exact congrArg (m :: ·) (ih h')
      · rw [if_neg hk, if_neg (by
          intro c
          exact hk ⟨c.1, fun d => c.2 ((h msg_id).mp d)⟩)]
        exact ih h

theorem wDedupGo_append (s : List String) (l1 l2 : List WRaw) :
    wDedupGo s (l1 ++ l2)
      = wDedupGo s l1
        ++ wDedupGo (s ++ (wDedupGo s l1).filterMap WRaw.id) l2 := by
  induction l1 generalizing s with
  | nil =>
    simp only [List.nil_append, wDedupGo, List.filterMap_nil, List.append_nil]
  | cons m ms ih =>
    match hid : m.id with
    | none =>
      rw [List.cons_append]
      simp only [wDedupGo, hid]
      exact ih s
    | some msg_id =>
      rw [List.cons_append]
      simp only [wDedupGo, hid]
      by_cases hk : msg_id ≠ "" ∧ msg_id ∉ s
      · rw [if_pos hk, if_pos hk, ih (msg_id :: s), List.cons_append]
        refine congrArg (m :: ·) (congrArg _ ?_)
        apply wDedupGo_congr
        intro x
        simp only [List.mem_cons, List.mem_append, List.filterMap_cons, hid,
          List.mem_cons]
        tauto
      · rw [if_neg hk, if_neg hk]
        exact ih s

theorem wDedup_fold_eq (messages : List WRaw) :
    ∀ (m0 : List WRaw) (s0 : List String),
      messages.foldl
        (fun (a : List WRaw × List String) msg =>
          match msg.id with
          | some msg_id =>
            if msg_id ≠ "" ∧ msg_id ∉ a.2 then
              (a.1 ++ [msg], a.2 ++ [msg_id])
            else a
          | none => a)
        (m0, s0)
      = (m0 ++ wDedupGo s0 messages,
         s0 ++ (wDedupGo s0 messages).filterMap WRaw.id) := by
  induction messages with
  | nil => intro m0 s0; simp [wDedupGo]
  | cons m ms ih =>
    intro m0 s0
    rw [List.foldl_cons]
    match hid : m.id with
    | none =>
      simp only [hid]
      rw [ih m0 s0]
      simp only [wDedupGo, hid]
    | some msg_id =>
      simp only [hid]
      by_cases hk : msg_id ≠ "" ∧ msg_id ∉ s0
      · rw [if_pos hk, ih (m0 ++ [m]) (s0 ++ [msg_id])]
        simp only [wDedupGo, hid, if_pos hk]
        have hcongr : wDedupGo (s0 ++ [msg_id]) ms = wDedupGo (msg_id :: s0) ms := by
          apply wDedupGo_congr
          intro x
          simp only [List.mem_append, List.mem_singleton, List.mem_cons]
          tauto
        rw [hcongr]
        simp [List.append_assoc, List.filterMap_cons, hid]
      · rw [if_neg hk, ih m0 s0]
        simp only [wDedupGo, hid, if_neg hk]

theorem webexCombine_fold (results : List (Except Unit (List WRaw × List Int))) :
    ∀ (m0 : List WRaw) (s0 : List String) (d0 : List Int),
      results.foldl
        (fun (acc : List WRaw × List String × List Int) result =>
          match result with
          | .error _ => acc
          | .ok (messages, range_days) =>
            let step := messages.foldl
              (fun (a : List WRaw × List String) msg =>
                match msg.id with
                | some msg_id =>
                  if msg_id ≠ "" ∧ msg_id ∉ a.2 then
                    (a.1 ++ [msg], a.2 ++ [msg_id])
                  else a
                | none => a)
              (acc.1, acc.2.1)
            (step.1, step.2, acc.2.2 ++ range_days))
        (m0, s0, d0)
      = (m0 ++ wDedupGo s0 ((wOkResults results).map Prod.fst).flatten,
         s0 ++ (wDedupGo s0 ((wOkResults results).map Prod.fst).flatten).filterMap WRaw.id,
         d0 ++ ((wOkResults results).map Prod.snd).flatten) := by
  induction results with
  | nil => intro m0 s0 d0; simp [wOkResults, wDedupGo]
  | cons r rs ih =>
    intro m0 s0 d0
    match r with
    | .error e =>
      rw [List.foldl_cons]
      have : wOkResults (Except.error e :: rs) = wOkResults rs := by
        simp [wOkResults, Except.toOption]
      rw [this]
      exact ih m0 s0 d0
    | .ok (messages, range_days) =>
      rw [List.foldl_cons]
      have hok : wOkResults (Except.ok (messages, range_days) :: rs)
          = (messages, range_days) :: wOkResults rs := by
        simp [wOkResults, Except.toOption]
      rw [hok]
      simp only [wDedup_fold_eq messages m0 s0]
      rw [ih]
      have hflat : ((((messages, range_days) :: wOkResults rs)).map Prod.fst).flatten
          = messages ++ ((wOkResults rs).map Prod.fst).flatten := by
        simp
      rw [hflat, wDedupGo_append]
      simp [List.append_assoc]

theorem webexCombine_eq (results : List (Except Unit (List WRaw × List Int))) :
    webexCombine results
      = (wDedupGo [] ((wOkResults results).map Prod.fst).flatten,
         ((wOkResults results).map Prod.snd).flatten) := by
  unfold webexCombine
  rw [webexCombine_fold results [] [] []]
  simp

theorem wDedupGo_ids_truthy (s : List String) :
    ∀ l : List WRaw, ∀ m ∈ wDedupGo s l, ∃ i, m.id = some i ∧ i ≠ "" := by
  intro l
  induction l generalizing s with
  | nil => intro m hm; cases hm
  | cons w ws ih =>
    intro m hm
    match hid : w.id with
    | none =>
      rw [wDedupGo, hid] at hm
      exact ih s m hm
    | some msg_id =>
      simp only [wDedupGo, hid] at hm
      by_cases hk : msg_id ≠ "" ∧ msg_id ∉ s
      · rw [if_pos hk] at hm
        rcases List.mem_cons.mp hm with h | h
        · exact ⟨msg_id, h ▸ hid, hk.1⟩
        · exact ih (msg_id :: s) m h
      · rw [if_neg hk] at hm
        exact ih s m hm

/-- C2 (amended): merged-output deduplication.  For the Telegram merge, for
every id the merged output restricted to that id is exactly the first
occurrence of that id in the concatenated successful chunk results, in chunk
order — so a duplicated id survives exactly once, first-seen wins, and the
key is the id alone.  The Webex merge satisfies the same property for every
truthy (nonempty) id, but drops messages whose id is missing or empty
entirely. -/
theorem C2_dedup_theorem :
    (∀ (results : List (Except Unit (List Message × List Int))) (i : String),
      (telegramCombine results).1.filter (fun m => m.id = i)
        = (((okResults results).map Prod.fst).flatten.filter
            (fun m => m.id = i)).take 1)
    ∧ (∀ (results : List (Except Unit (List WRaw × List Int))) (i : String),
        i ≠ "" →
        (webexCombine results).1.filter (fun m => m.id = some i)
          = (((wOkResults results).map Prod.fst).flatten.filter
              (fun m => m.id = some i)).take 1)
    ∧ (∀ (results : List (Except Unit (List WRaw × List Int))),
        (webexCombine results).1.filter
          (fun m => m.id = some "" ∨ m.id = none) = []) := by
  refine ⟨?_, ?_, ?_⟩
  · intro results i
    rw [telegramCombine_eq]
    have := dedupGo_filter_id i (((okResults results).map Prod.fst).flatten) []
    simpa using this
  · intro results i hi
    rw [webexCombine_eq]
    have := wDedupGo_filter_id i hi (((wOkResults results).map Prod.fst).flatten) []
    simpa using this
  · intro results
    rw [webexCombine_eq]
    apply List.filter_eq_nil_iff.mpr
    intro m hm
    rcases wDedupGo_ids_truthy [] _ m hm with ⟨i, hid, hne⟩
    simp [hid, hne]

/-- C2 counterexample: the raw Webex message with (falsy) id `""` appears in
the results of two different fetched chunks, yet the merged output contains
**zero** messages with that id — not exactly one: the Webex merge drops
falsy-id messages entirely. -/
theorem C2_counterexample :
    (webexCombine
      [Except.ok ([exWEmpty], [0]), Except.ok ([exWEmpty], [1])]).1 = [] := by
  rfl

/-- C2 witness: the amended theorem applied to a concrete run in which id
`M7` is returned by two overlapping chunks — exactly the first copy
survives. -/
theorem C2_dedup_witness :
    (webexCombine
      [Except.ok ([exWM7], [0]), Except.ok ([exWM7], [1])]).1.filter
        (fun m => m.id = some "M7") = [exWM7] := by
  have h := C2_dedup_theorem.2.1
    [Except.ok ([exWM7], [0]), Except.ok ([exWM7], [1])] "M7" (by decide)
  rw [h]
  rfl

/-- C1: thread resolution and final ordering.  For the message set
`A(root) < B(reply_to=A) < C(reply_to=B) < D(root)` (timestamps ascending),
whatever order the merged list presents them in, the Telegram
threading/ordering pass returns exactly `A, B, C, D`, with `B` and `C`
assigned thread root id `"A"` (= `A`'s id): root resolution walks the reply
chain transitively to the true root, top-level messages are sorted
chronologically, and each root is immediately followed by its
chronologically sorted descendants. -/
theorem C1_thread_grouping :
    (allPerms [exA, exB, exC, exD]).all
      (fun p => threadMessages p
        = [exA, { exB with thread_id := some exA.id },
           { exC with thread_id := some exA.id }, exD]) = true := by
  decide

/-- C5 counterexample: with only `X(reply_to="missing-id", t=1)` and the
top-level `E(t=2)` in range, the Telegram pass emits `X` **before** `E` —
`X` is treated as a top-level thread in chronological position, not placed
in an orphaned-threads tail after all top-level threads (which would give
`E, X`). -/
theorem C5_counterexample :
    (threadMessages [exX, exE]).map Message.id = ["X", "E"]
    ∧ (threadMessages [exX, exE]).map Message.id ≠ ["E", "X"] := by
  decide

/-- C5 (amended): orphan handling on the Telegram path.  A message `X` whose
`reply_to` names an id absent from the in-range set is resolved as its own
synthetic/local root (`thread_root_id = X.id`), appears in the final output
exactly once, and is emitted as a **top-level** thread at its chronological
position among the other top-level threads; the orphaned-threads tail is not
used for it.  (On the Webex path the orphan instead lands in the leftover
tail ordered by root id — `webexThreadMessages [exX, exE]` puts `X` last.) -/
theorem C5_orphan_theorem :
    threadMessages [exX] = [{ exX with thread_id := some exX.id }]
    ∧ threadMessages [exX, exE]
        = [{ exX with thread_id := some exX.id }, exE]
    ∧ (threadMessages [exX, exE]).count
        { exX with thread_id := some exX.id } = 1
    ∧ (webexThreadMessages [exX, exE]).map Message.id = ["E", "X"] := by
  decide

/-! ## Range Partitioner lemmas -/

theorem partitionDays_ignores_future (cache : Int → CacheEntry) (today : Int) :
    ∀ days : List Int,
      partitionDays (fun d => if d < today then cache d else .absent) today days
        = partitionDays cache today days := by
  intro days
  induction days with
  | nil => rfl
  | cons d ds ih =>
    by_cases hd : d < today
    · rw [partitionDays, partitionDays, if_pos hd, ih]
    · rw [partitionDays, partitionDays, if_neg hd]
      have h1 : readDay today d CacheEntry.absent = .miss := by
        rw [readDay.eq_def, if_neg hd]
      have h2 : readDay today d (cache d) = .miss := by
        rw [readDay.eq_def, if_neg hd]
      rw [h1, h2, ih]

theorem partitionDays_fetch_mem (cache : Int → CacheEntry) (today : Int) :
    ∀ (days : List Int) (hits : List Message) (misses : List Int),
      partitionDays cache today days = .ok (hits, misses) →
      ∀ d ∈ days, ¬ d < today → d ∈ misses := by
  intro days
  induction days with
  | nil => intro hits misses _ d hd; cases hd
  | cons d0 ds ih =>
    intro hits misses hp d hd htoday
    rw [partitionDays] at hp
    rcases List.mem_cons.mp hd with rfl | hmem
    · have hread : readDay today d (cache d) = .miss := by
        rw [readDay.eq_def, if_neg htoday]
      rw [hread] at hp
      match hr : partitionDays cache today ds with
      | .error e => rw [hr] at hp; cases hp
      | .ok p =>
        rw [hr] at hp
        simp only [Except.map] at hp
        cases hp
        exact List.mem_cons_self _ _
    · match hread : readDay today d0 (cache d0) with
      | .raised => rw [hread] at hp; cases hp
      | .hit msgs =>
        rw [hread] at hp
        match hr : partitionDays cache today ds with
        | .error e => rw [hr] at hp; cases hp
        | .ok p =>
          rw [hr] at hp
          simp only [Except.map] at hp
          cases hp
          exact ih p.1 p.2 (by rw [hr]) d hmem htoday
      | .miss =>
        rw [hread] at hp
        match hr : partitionDays cache today ds with
        | .error e => rw [hr] at hp; cases hp
        | .ok p =>
          rw [hr] at hp
          simp only [Except.map] at hp
          cases hp
          exact List.mem_cons_of_mem _ (ih p.1 p.2 (by rw [hr]) d hmem htoday)

theorem partitionDays_miss_sublist (cache : Int → CacheEntry) (today : Int) :
    ∀ (days : List Int) (hits : List Message) (misses : List Int),
      partitionDays cache today days = .ok (hits, misses) →
      misses.Sublist days := by
  intro days
  induction days with
  | nil =>
    intro hits misses hp
    rw [partitionDays] at hp
    cases hp
    exact List.Sublist.refl _
  | cons d0 ds ih =>
    intro hits misses hp
    rw [partitionDays] at hp
    match hread : readDay today d0 (cache d0) with
    | .raised => rw [hread] at hp; cases hp
    | .hit msgs =>
      rw [hread] at hp
      match hr : partitionDays cache today ds with
      | .error e => rw [hr] at hp; cases hp
      | .ok p =>
        rw [hr] at hp
        simp only [Except.map] at hp
        cases hp
        exact (ih p.1 p.2 (by rw [hr])).cons _
    | .miss =>
      rw [hread] at hp
      match hr : partitionDays cache today ds with
      | .error e => rw [hr] at hp; cases hp
      | .ok p =>
        rw [hr] at hp
        simp only [Except.map] at hp
        cases hp
        exact (ih p.1 p.2 (by rw [hr])).cons₂ _

/-- C3: today-boundary cache invariant.  (i) The partition scan never reads a
cache entry for any day not strictly before local `today`: replacing all
such entries by `absent` is invisible — in particular a stale entry for
today is never read.  (ii) Every scanned day not strictly before `today`
(today itself included) is classified as a fetch day.  (iii)/(iv) The
Telegram and Webex cache writers only ever write days strictly before local
`today`. -/
theorem C3_today_boundary :
    (∀ (cache : Int → CacheEntry) (today : Int) (days : List Int),
      partitionDays (fun d => if d < today then cache d else .absent) today
          days
        = partitionDays cache today days)
    ∧ (∀ (cache : Int → CacheEntry) (today : Int) (days : List Int)
        (hits : List Message) (misses : List Int),
        partitionDays cache today days = .ok (hits, misses) →
        ∀ d ∈ days, ¬ d < today → d ∈ misses)
    ∧ (∀ (flag : Bool) (tz today : Int) (msgs : List Message)
        (ranges : List Int) (p : Int × List Message),
        p ∈ telegramWrites flag tz today msgs ranges → p.1 < today)
    ∧ (∀ (flag : Bool) (tz today : Int) (msgs : List Message)
        (ranges : List Int) (p : Int × List Message),
        p ∈ webexWrites flag tz today msgs ranges → p.1 < today) := by
  refine ⟨partitionDays_ignores_future, partitionDays_fetch_mem, ?_, ?_⟩
  · intro flag tz today msgs ranges p hp
    rw [telegramWrites] at hp
    by_cases hf : flag
    · rw [if_pos hf, telegramCacheWrites] at hp
      rcases List.mem_map.mp hp with ⟨d, hd, hpd⟩
      have := List.mem_filter.mp hd
      rw [← hpd]
      exact of_decide_eq_true this.2
    · rw [if_neg hf] at hp
      cases hp
  · intro flag tz today msgs ranges p hp
    rw [webexWrites] at hp
    rcases List.mem_map.mp hp with ⟨d, hd, hpd⟩
    have := List.mem_filter.mp hd
    rw [← hpd]
    have h2 := this.2
    rw [Bool.and_eq_true] at h2
    exact of_decide_eq_true h2.1

/-- C3 witness: with `today = 5`, a window `[3,5]` and a stale `valid` cache
entry present for **every** day (today included), day 5 is still classified
as a fetch day; and the concrete write set for fetched days `[3,4]` only
contains days before 5. -/
theorem C3_witness :
    ((5 : Int) ∈ ([5] : List Int)) ∧ ((3 : Int) < 5) := by
  constructor
  · exact C3_today_boundary.2.1 (fun _ => .valid [exA]) 5 (windowDays 3 5)
      [exA, exA] [5] (by rfl) 5 (by decide) (by decide)
  · exact C3_today_boundary.2.2.1 true 0 5 [] [3, 4] (3, []) (by decide)

/-- C6 counterexample: a cache entry for a past day whose JSON records fail
the `Message` schema (pydantic `ValidationError`) is **not** treated as a
miss — the exception escapes the cache-reading loop of `get_messages`
(whose `except` clause only catches `json.JSONDecodeError`). -/
theorem C6_counterexample :
    partitionDays (fun _ => .schemaInvalid) 10 (windowDays 0 0)
      = .error () := by
  rfl

/-- C6 (amended): corrupted-cache demotion.  (i) On the live read path a
cache entry that fails JSON decoding behaves exactly like an absent entry:
the day is demoted to a fetch day and no exception propagates.  But only
that failure mode is caught there: an I/O error on `open` or records failing
the Message schema raise out of `get_messages` (see the counterexample).
(ii) The `CacheService.get` helper (not called by the live clients) also
demotes schema failures to a miss, while an `open` failure still raises. -/
theorem C6_corrupted_cache_theorem :
    (∀ (cache : Int → CacheEntry) (today : Int) (days : List Int),
      partitionDays
          (fun d => if cache d = .corruptedJson then .absent else cache d)
          today days
        = partitionDays cache today days)
    ∧ cacheService_get .corruptedJson = .ok none
    ∧ cacheService_get .schemaInvalid = .ok none
    ∧ cacheService_get .absent = .ok none
    ∧ cacheService_get .ioError = .error () := by
  refine ⟨?_, rfl, rfl, rfl, rfl⟩
  intro cache today days
  induction days with
  | nil => rfl
  | cons d ds ih =>
    rw [partitionDays, partitionDays, ih]
    by_cases hc : cache d = .corruptedJson
    · rw [if_pos hc, hc]
      have : readDay today d .absent = readDay today d .corruptedJson := by
        by_cases hd : d < today <;> simp [readDay, hd]
      rw [this]
    · rw [if_neg hc]

/-! ## Association-list (Python dict) lemmas -/

theorem alGet_nil {κ α : Type} [DecidableEq κ] (k : κ) :
    alGet ([] : List (κ × α)) k = none := rfl

theorem alGet_cons {κ α : Type} [DecidableEq κ] (e : κ × α)
    (t : List (κ × α)) (k : κ) :
    alGet (e :: t) k = if e.1 = k then some e.2 else alGet t k := by
  by_cases he : e.1 = k
  · rw [alGet, List.find?_cons_of_pos _ (by simpa using he), if_pos he]
    rfl
  · rw [alGet, List.find?_cons_of_neg _ (by simpa using he), if_neg he]
    rfl

theorem alGet_append_right {κ α : Type} [DecidableEq κ]
    (t1 t2 : List (κ × α)) (k : κ) (h : alGet t1 k = none) :
    alGet (t1 ++ t2) k = alGet t2 k := by
  induction t1 with
  | nil => rfl
  | cons e t ih =>
    rw [alGet_cons] at h
    rw [List.cons_append, alGet_cons]
    by_cases he : e.1 = k
    · rw [if_pos he] at h; cases h
    · rw [if_neg he] at h ⊢
      exact ih h

theorem alGet_append_left {κ α : Type} [DecidableEq κ]
    (t1 t2 : List (κ × α)) (k : κ) (v : α) (h : alGet t1 k = some v) :
    alGet (t1 ++ t2) k = some v := by
  induction t1 with
  | nil => cases h
  | cons e t ih =>
    rw [alGet_cons] at h
    rw [List.cons_append, alGet_cons]
    by_cases he : e.1 = k
    · rw [if_pos he] at h ⊢
      exact h
    · rw [if_neg he] at h ⊢
      exact ih h

theorem alEnsure_of_isSome {κ α : Type} [DecidableEq κ]
    (t : List (κ × List α)) (k : κ) (v : List α)
    (h : alGet t k = some v) : alEnsure t k = t := by
  rw [alEnsure, h]

theorem alEnsure_of_none {κ α : Type} [DecidableEq κ]
    (t : List (κ × List α)) (k : κ)
    (h : alGet t k = none) : alEnsure t k = t ++ [(k, [])] := by
  rw [alEnsure, h]

theorem alGet_alEnsure_self {κ α : Type} [DecidableEq κ]
    (t : List (κ × List α)) (k : κ) :
    alGet (alEnsure t k) k = some ((alGet t k).getD []) := by
  match h : alGet t k with
  | some v => rw [alEnsure_of_isSome t k v h, h]; rfl
  | none =>
    rw [alEnsure_of_none t k h, alGet_append_right t [(k, [])] k h,
      alGet_cons]
    simp

theorem alGet_alEnsure_other {κ α : Type} [DecidableEq κ]
    (t : List (κ × List α)) (k k' : κ) (hne : k' ≠ k) :
    alGet (alEnsure t k) k' = alGet t k' := by
  match h : alGet t k with
  | some v => rw [alEnsure_of_isSome t k v h]
  | none =>
    rw [alEnsure_of_none t k h]
    match h' : alGet t k' with
    | some v => exact alGet_append_left t [(k, [])] k' v h'
    | none =>
      rw [alGet_append_right t [(k, [])] k' h', alGet_cons]
      rw [if_neg (fun c => hne c.symm)]
      rfl

theorem alGet_alPush_self {κ α : Type} [DecidableEq κ]
    (t : List (κ × List α)) (k : κ) (x : α) :
    alGet (alPush t k x) k = (alGet t k).map (fun v => v ++ [x]) := by
  induction t with
  | nil => rfl
  | cons e tt ih =>
    rw [alPush]
    by_cases he : e.1 = k
    · rw [if_pos he, alGet_cons, alGet_cons, if_pos he, if_pos he]
      rfl
    · rw [if_neg he, alGet_cons, alGet_cons, if_neg he, if_neg he]
      exact ih

theorem alGet_alPush_other {κ α : Type} [DecidableEq κ]
    (t : List (κ × List α)) (k k' : κ) (x : α) (hne : k' ≠ k) :
    alGet (alPush t k x) k' = alGet t k' := by
  induction t with
  | nil => rfl
  | cons e tt ih =>
    rw [alPush]
    by_cases he : e.1 = k
    · have hek : ¬ e.1 = k' := fun c => hne (by rw [← c, he])
      rw [if_pos he, alGet_cons, alGet_cons, if_neg hek, if_neg hek]
    · rw [if_neg he, alGet_cons, alGet_cons]
      by_cases he' : e.1 = k'
      · rw [if_pos he', if_pos he']
      · rw [if_neg he', if_neg he']
        exact ih

theorem alGet_alErase {κ α : Type} [DecidableEq κ]
    (t : List (κ × α)) (k k' : κ) :
    alGet (alErase t k) k' = if k' = k then none else alGet t k' := by
  induction t with
  | nil => by_cases h : k' = k <;> simp [alErase, h, alGet_nil]
  | cons e tt ih =>
    rw [alErase, List.filter_cons]
    rw [alErase] at ih
    by_cases he : e.1 = k
    · rw [if_neg (by simpa using he), ih, alGet_cons]
      by_cases hk : k' = k
      · rw [if_pos hk, if_pos hk]
      · rw [if_neg hk, if_neg hk,
          if_neg (fun c => hk (by rw [← c, he]))]
    · rw [if_pos (by simpa using he), alGet_cons]
      by_cases he' : e.1 = k'
      · rw [if_pos he', alGet_cons, if_pos he',
          if_neg (fun c => he (by rw [← c]; exact he'))]
      · rw [if_neg he', alGet_cons, if_neg he', ih]

/-! ## Cache Writer grouping lemmas -/

theorem grouped_by_day_fold_lookup (tz : Int) :
    ∀ (msgs : List Message) (acc : List (Int × List Message)) (d : Int),
      alGet (msgs.foldl
          (fun acc msg =>
            let msg_day_local := localDay tz msg.timestamp
            alPush (alEnsure acc msg_day_local) msg_day_local msg) acc) d
        = match alGet acc d with
          | some v => some (v ++ groupForDay tz msgs d)
          | none =>
            if groupForDay tz msgs d = [] then none
            else some (groupForDay tz msgs d) := by
  intro msgs
  induction msgs with
  | nil =>
    intro acc d
    match h : alGet acc d with
    | some v => simp [groupForDay, h]
    | none => simp [groupForDay, h]
  | cons m ms ih =>
    intro acc d
    rw [List.foldl_cons]
    rw [ih]
    by_cases hd : localDay tz m.timestamp = d
    · have hstep : alGet (alPush (alEnsure acc (localDay tz m.timestamp))
          (localDay tz m.timestamp) m) d
          = some ((alGet acc d).getD [] ++ [m]) := by
        rw [← hd, alGet_alPush_self, alGet_alEnsure_self]
        rfl
      rw [hstep]
      have hfil : groupForDay tz (m :: ms) d = m :: groupForDay tz ms d := by
        rw [groupForDay, List.filter_cons_of_pos (by simpa using hd)]
        rfl
      match h : alGet acc d with
      | some v => simp [hfil, List.append_assoc]
      | none => simp [hfil]
    · have hstep : alGet (alPush (alEnsure acc (localDay tz m.timestamp))
          (localDay tz m.timestamp) m) d = alGet acc d := by
        rw [alGet_alPush_other _ _ _ _ (fun c => hd c.symm),
          alGet_alEnsure_other _ _ _ (fun c => hd c.symm)]
      rw [hstep]
      have hfil : groupForDay tz (m :: ms) d = groupForDay tz ms d := by
        rw [groupForDay, List.filter_cons_of_neg (by simpa using hd)]
        rfl
      rw [hfil]

theorem grouped_by_day_local_getD (tz : Int) (msgs : List Message) (d : Int) :
    (alGet (grouped_by_day_local tz msgs) d).getD []
      = groupForDay tz msgs d := by
  rw [grouped_by_day_local, grouped_by_day_fold_lookup tz msgs [] d,
    alGet_nil]
  by_cases h : groupForDay tz msgs d = []
  · rw [if_pos h, h]
    rfl
  · rw [if_neg h]
    rfl

/-- C8: empty-day cache write.  With caching enabled, for every fetched day
`d` strictly before local today, both the Telegram and Webex cache writers
emit an entry `(d, contents)` whose contents are exactly the fetched
messages whose **own** local calendar day is `d` (in fetch order) — in
particular, a day with no messages gets a `(d, [])` entry ("checked,
nothing found"), and every message stored under `d` really falls on local
day `d` (messages are grouped by their own local day, not by chunk
boundaries). -/
theorem C8_empty_day_write :
    ∀ (tz today : Int) (newMsgs : List Message) (ranges : List Int) (d : Int),
      d ∈ ranges → d < today →
      ((d, groupForDay tz newMsgs d)
          ∈ telegramWrites true tz today newMsgs ranges
        ∧ (d, groupForDay tz newMsgs d)
          ∈ webexWrites true tz today newMsgs ranges
        ∧ (groupForDay tz newMsgs d = [] →
            (d, []) ∈ telegramWrites true tz today newMsgs ranges)
        ∧ (∀ m ∈ groupForDay tz newMsgs d,
            localDay tz m.timestamp = d)) := by
  intro tz today newMsgs ranges d hd htoday
  have htg : (d, groupForDay tz newMsgs d)
      ∈ telegramWrites true tz today newMsgs ranges := by
    rw [telegramWrites, if_pos rfl, telegramCacheWrites]
    apply List.mem_map.mpr
    refine ⟨d, List.mem_filter.mpr ⟨hd, by simpa using htoday⟩, ?_⟩
    rw [grouped_by_day_local_getD]
  have hwx : (d, groupForDay tz newMsgs d)
      ∈ webexWrites true tz today newMsgs ranges := by
    rw [webexWrites]
    apply List.mem_map.mpr
    refine ⟨d, List.mem_filter.mpr ⟨hd, by simpa using htoday⟩, ?_⟩
    rw [grouped_by_day_local_getD]
  refine ⟨htg, hwx, ?_, ?_⟩
  · intro hempty
    rw [hempty] at htg
    exact htg
  · intro m hm
    have := List.mem_filter.mp hm
    exact of_decide_eq_true this.2

/-- C8 witness: a fetched day `3` (before today `5`) with no fetched
messages still receives a cache entry, the empty one `(3, [])`. -/
theorem C8_witness :
    ((3, ([] : List Message)) ∈ telegramWrites true 0 5 [] [3])
    ∧ ((3, ([] : List Message)) ∈ webexWrites true 0 5 [] [3]) := by
  have h := C8_empty_day_write 0 5 [] [3] 3 (by decide) (by decide)
  exact ⟨h.2.2.1 rfl, h.2.1⟩

/-! ## Chunk-failure lemmas -/

theorem dedupGo_mem_id (s : List String) :
    ∀ (l : List Message) (m : Message), m ∈ l → m.id ∉ s →
      ∃ m' ∈ dedupGo s l, m'.id = m.id := by
  intro l
  induction l generalizing s with
  | nil => intro m hm; cases hm
  | cons a as ih =>
    intro m hm hs
    rcases List.mem_cons.mp hm with rfl | hmem
    · rw [dedupGo, if_neg hs]
      exact ⟨m, List.mem_cons_self _ _, rfl⟩
    · by_cases ha : a.id ∈ s
      · rw [dedupGo, if_pos ha]
        exact ih s m hmem hs
      · rw [dedupGo, if_neg ha]
        by_cases hsame : m.id = a.id
        · exact ⟨a, List.mem_cons_self _ _, hsame.symm⟩
        · have : m.id ∉ a.id :: s := by
            intro c
            rcases List.mem_cons.mp c with c | c
            · exact hsame c
            · exact hs c
          rcases ih (a.id :: s) m hmem this with ⟨m', hm', he⟩
          exact ⟨m', List.mem_cons_of_mem _ hm', he⟩

theorem okResults_mem (results : List (Except Unit (List Message × List Int)))
    (msgs : List Message) (days : List Int)
    (h : Except.ok (msgs, days) ∈ results) :
    (msgs, days) ∈ okResults results := by
  rw [okResults]
  apply List.mem_filterMap.mpr
  exact ⟨Except.ok (msgs, days), h, rfl⟩

theorem okResults_all_error
    (results : List (Except Unit (List Message × List Int)))
    (h : ∀ r ∈ results, r = Except.error ()) :
    okResults results = [] := by
  rw [okResults]
  induction results with
  | nil => rfl
  | cons r rs ih =>
    rw [List.filterMap_cons]
    rw [h r (List.mem_cons_self _ _)]
    exact ih (fun r hr => h r (List.mem_cons_of_mem _ hr))

/-! ## Threading-pass permutation lemmas -/

theorem alGet_none_iff {κ α : Type} [DecidableEq κ]
    (t : List (κ × α)) (k : κ) :
    alGet t k = none ↔ k ∉ alKeys t := by
  induction t with
  | nil => simp [alGet_nil, alKeys]
  | cons e tt ih =>
    rw [alGet_cons, alKeys, List.map_cons]
    by_cases he : e.1 = k
    · simp [he]
    · simp only [if_neg he, List.mem_cons]
      rw [alKeys] at ih
      constructor
      · intro h c
        rcases c with c | c
        · exact he c.symm
        · exact (ih.mp h) c
      · intro h
        exact ih.mpr (fun c => h (Or.inr c))

theorem alKeys_alPush {κ α : Type} [DecidableEq κ]
    (t : List (κ × List α)) (k : κ) (x : α) :
    alKeys (alPush t k x) = alKeys t := by
  induction t with
  | nil => rfl
  | cons e tt ih =>
    rw [alPush]
    by_cases he : e.1 = k
    · rw [if_pos he]
      rfl
    · rw [if_neg he]
      simp only [alKeys, List.map_cons] at ih ⊢
      rw [ih]

theorem alKeys_alEnsure_nodup {κ α : Type} [DecidableEq κ]
    (t : List (κ × List α)) (k : κ) (h : (alKeys t).Nodup) :
    (alKeys (alEnsure t k)).Nodup := by
  match hg : alGet t k with
  | some v => rw [alEnsure_of_isSome t k v hg]; exact h
  | none =>
    rw [alEnsure_of_none t k hg, alKeys, List.map_append]
    rw [alKeys] at h
    apply List.Nodup.append h (by simp)
    intro a ha hb
    simp only [List.map_cons, List.map_nil, List.mem_singleton] at hb
    rw [hb] at ha
    exact ((alGet_none_iff t k).mp hg) ha

theorem alKeys_alErase_nodup {κ α : Type} [DecidableEq κ]
    (t : List (κ × α)) (k : κ) (h : (alKeys t).Nodup) :
    (alKeys (alErase t k)).Nodup := by
  apply List.Nodup.sublist _ h
  rw [alErase, alKeys, alKeys]
  exact (List.filter_sublist t).map Prod.fst

theorem alValues_alEnsure_flatten {κ α : Type} [DecidableEq κ]
    (t : List (κ × List α)) (k : κ) :
    (alValues (alEnsure t k)).flatten = (alValues t).flatten := by
  match hg : alGet t k with
  | some v => rw [alEnsure_of_isSome t k v hg]
  | none =>
    rw [alEnsure_of_none t k hg, alValues, List.map_append,
      List.flatten_append]
    simp [alValues]

theorem alValues_alPush_flatten {κ α : Type} [DecidableEq κ]
    (t : List (κ × List α)) (k : κ) (x : α) (v : List α)
    (hg : alGet t k = some v) :
    List.Perm ((alValues (alPush t k x)).flatten)
      ((alValues t).flatten ++ [x]) := by
  induction t with
  | nil => cases hg
  | cons e tt ih =>
    rw [alGet_cons] at hg
    rw [alPush]
    by_cases he : e.1 = k
    · rw [if_pos he]
      apply Multiset.coe_eq_coe.mp
      have h1 : ((((alValues ((e.1, e.2 ++ [x]) :: tt)).flatten : List α))
          : Multiset α) = ↑e.2 + ↑[x] + ↑(alValues tt).flatten := rfl
      have h2 : ((((alValues (e :: tt)).flatten ++ [x] : List α))
          : Multiset α) = ↑e.2 + ↑(alValues tt).flatten + ↑[x] := rfl
      rw [h1, h2]
      abel
    · rw [if_neg he] at hg
      rw [if_neg he]
      have hperm := ih hg
      have heq : (alValues (e :: tt)).flatten ++ [x]
          = e.2 ++ ((alValues tt).flatten ++ [x]) := by
        simp [alValues, List.append_assoc]
      rw [heq]
      exact List.Perm.append_left e.2 hperm

theorem alErase_of_not_mem {κ α : Type} [DecidableEq κ]
    (t : List (κ × α)) (k : κ) (h : k ∉ alKeys t) :
    alErase t k = t := by
  rw [alErase]
  apply List.filter_eq_self.mpr
  intro e he
  simp only [decide_eq_true_eq]
  intro c
  exact h (c ▸ List.mem_map.mpr ⟨e, he, rfl⟩)

theorem alErase_values_perm {κ α : Type} [DecidableEq κ]
    (t : List (κ × List α)) (k : κ) (v : List α)
    (hn : (alKeys t).Nodup) (hg : alGet t k = some v) :
    List.Perm ((alValues t).flatten)
      (v ++ (alValues (alErase t k)).flatten) := by
  induction t with
  | nil => cases hg
  | cons e tt ih =>
    rw [alGet_cons] at hg
    rw [alKeys, List.map_cons, List.nodup_cons] at hn
    by_cases he : e.1 = k
    · rw [if_pos he] at hg
      have hv : e.2 = v := Option.some.inj hg
      have hkeys : k ∉ alKeys tt := fun c => hn.1 (he ▸ c)
      rw [alErase, List.filter_cons, if_neg (by simpa using he)]
      rw [← alErase, alErase_of_not_mem tt k hkeys, ← hv]
      rfl
    · rw [if_neg he] at hg
      have hperm := ih hn.2 hg
      rw [alErase, List.filter_cons, if_pos (by simpa using he), ← alErase]
      apply Multiset.coe_eq_coe.mp
      have h1 : ((((alValues (e :: tt)).flatten : List α)) : Multiset α)
          = ↑e.2 + ↑(alValues tt).flatten := rfl
      have h2 : (((v ++ (alValues (e :: alErase tt k)).flatten : List α))
          : Multiset α)
          = ↑v + (↑e.2 + ↑(alValues (alErase tt k)).flatten) := rfl
      rw [h1, h2, Multiset.coe_eq_coe.mpr hperm]
      have h3 : (((v ++ (alValues (alErase tt k)).flatten : List α))
          : Multiset α) = ↑v + ↑(alValues (alErase tt k)).flatten := rfl
      rw [h3]
      abel

theorem classifyTelegram_fold_perm :
    ∀ (l : List Message) (acc : ThreadMap × List Message),
      List.Perm
        ((l.foldl classifyTelegramStep acc).2
          ++ (alValues (l.foldl classifyTelegramStep acc).1).flatten)
        (acc.2 ++ (alValues acc.1).flatten ++ l) := by
  intro l
  induction l with
  | nil =>
    intro acc
    rw [List.foldl_nil, List.append_nil]
  | cons msg ms ih =>
    intro acc
    rw [List.foldl_cons]
    have key : ∀ acc' : ThreadMap × List Message,
        acc' = classifyTelegramStep acc msg →
        List.Perm (acc'.2 ++ (alValues acc'.1).flatten)
          ((acc.2 ++ (alValues acc.1).flatten) ++ [msg]) := by
      intro acc' hstep
      rw [classifyTelegramStep] at hstep
      match hth : msg.thread_id with
      | none =>
        simp only [hth] at hstep
        subst hstep
        apply Multiset.coe_eq_coe.mp
        have h1 : (((acc.2 ++ [msg] ++ (alValues acc.1).flatten : List Message))
            : Multiset Message)
            = ↑acc.2 + ↑[msg] + ↑(alValues acc.1).flatten := rfl
        have h2 : ((((acc.2 ++ (alValues acc.1).flatten) ++ [msg]
            : List Message)) : Multiset Message)
            = ↑acc.2 + ↑(alValues acc.1).flatten + ↑[msg] := rfl
        rw [h1, h2]
        try abel
        try rfl
      | some parent_id =>
        simp only [hth] at hstep
        by_cases hp : parent_id ≠ ""
        · rw [if_pos hp] at hstep
          by_cases hid : msg.id ≠ parent_id
          · rw [if_pos hid] at hstep
            subst hstep
            simp only
            have hens : alGet (alEnsure acc.1 parent_id) parent_id
                = some ((alGet acc.1 parent_id).getD []) :=
              alGet_alEnsure_self acc.1 parent_id
            have hpush := alValues_alPush_flatten (alEnsure acc.1 parent_id)
              parent_id msg _ hens
            have hflat := alValues_alEnsure_flatten acc.1 parent_id
            apply Multiset.coe_eq_coe.mp
            have h1 : (((acc.2
                ++ (alValues (alPush (alEnsure acc.1 parent_id) parent_id
                      msg)).flatten : List Message)) : Multiset Message)
                = ↑acc.2 + ↑(alValues (alPush (alEnsure acc.1 parent_id)
                    parent_id msg)).flatten := rfl
            rw [h1, Multiset.coe_eq_coe.mpr hpush]
            have h2 : ((((alValues (alEnsure acc.1 parent_id)).flatten
                ++ [msg] : List Message)) : Multiset Message)
                = ↑(alValues (alEnsure acc.1 parent_id)).flatten + ↑[msg] :=
              rfl
            rw [h2, hflat]
            have h3 : ((((acc.2 ++ (alValues acc.1).flatten) ++ [msg]
                : List Message)) : Multiset Message)
                = ↑acc.2 + ↑(alValues acc.1).flatten + ↑[msg] := rfl
            rw [h3]
            try abel
            try rfl
          · rw [if_neg hid] at hstep
            subst hstep
            simp only
            rw [alValues_alEnsure_flatten acc.1 parent_id]
            apply Multiset.coe_eq_coe.mp
            have h1 : (((acc.2 ++ [msg] ++ (alValues acc.1).flatten
                : List Message)) : Multiset Message)
                = ↑acc.2 + ↑[msg] + ↑(alValues acc.1).flatten := rfl
            have h2 : ((((acc.2 ++ (alValues acc.1).flatten) ++ [msg]
                : List Message)) : Multiset Message)
                = ↑acc.2 + ↑(alValues acc.1).flatten + ↑[msg] := rfl
            rw [h1, h2]
            try abel
            try rfl
        · rw [if_neg hp] at hstep
          subst hstep
          apply Multiset.coe_eq_coe.mp
          have h1 : (((acc.2 ++ [msg] ++ (alValues acc.1).flatten
              : List Message)) : Multiset Message)
              = ↑acc.2 + ↑[msg] + ↑(alValues acc.1).flatten := rfl
          have h2 : ((((acc.2 ++ (alValues acc.1).flatten) ++ [msg]
              : List Message)) : Multiset Message)
              = ↑acc.2 + ↑(alValues acc.1).flatten + ↑[msg] := rfl
          rw [h1, h2]
          try abel
          try rfl
    have hstep := key (classifyTelegramStep acc msg) rfl
    have hih := ih (classifyTelegramStep acc msg)
    apply hih.trans
    apply Multiset.coe_eq_coe.mp
    have coeih := Multiset.coe_eq_coe.mpr hstep
    have h1 : ((((classifyTelegramStep acc msg).2
        ++ (alValues (classifyTelegramStep acc msg).1).flatten ++ (ms : List Message))
        : List Message) : Multiset Message)
        = ↑((classifyTelegramStep acc msg).2
            ++ (alValues (classifyTelegramStep acc msg).1).flatten) + ↑ms := by
      rfl
    have h2 : (((acc.2 ++ (alValues acc.1).flatten ++ (msg :: ms)
        : List Message)) : Multiset Message)
        = ↑(acc.2 ++ (alValues acc.1).flatten) + (↑[msg] + ↑ms) := rfl
    rw [h1, h2, coeih]
    have h3 : ((((acc.2 ++ (alValues acc.1).flatten) ++ [msg] : List Message))
        : Multiset Message)
        = ↑(acc.2 ++ (alValues acc.1).flatten) + ↑[msg] := rfl
    rw [h3]
    try abel
    try rfl

theorem classifyWebex_fold_perm :
    ∀ (l : List Message) (acc : ThreadMap × List Message),
      List.Perm
        ((l.foldl classifyWebexStep acc).2
          ++ (alValues (l.foldl classifyWebexStep acc).1).flatten)
        (acc.2 ++ (alValues acc.1).flatten ++ l) := by
  intro l
  induction l with
  | nil =>
    intro acc
    rw [List.foldl_nil, List.append_nil]
  | cons msg ms ih =>
    intro acc
    rw [List.foldl_cons]
    have key :
        List.Perm ((classifyWebexStep acc msg).2
            ++ (alValues (classifyWebexStep acc msg).1).flatten)
          ((acc.2 ++ (alValues acc.1).flatten) ++ [msg]) := by
      rw [classifyWebexStep]
      by_cases ht : truthyStr msg.thread_id
      · rw [if_pos ht]
        simp only
        have hens : alGet (alEnsure acc.1 (msg.thread_id.getD ""))
            (msg.thread_id.getD "")
            = some ((alGet acc.1 (msg.thread_id.getD "")).getD []) :=
          alGet_alEnsure_self acc.1 _
        have hpush := alValues_alPush_flatten
          (alEnsure acc.1 (msg.thread_id.getD "")) (msg.thread_id.getD "")
          msg _ hens
        apply Multiset.coe_eq_coe.mp
        have h1 : (((acc.2 ++ (alValues (alPush
            (alEnsure acc.1 (msg.thread_id.getD ""))
            (msg.thread_id.getD "") msg)).flatten : List Message))
            : Multiset Message)
            = ↑acc.2 + ↑(alValues (alPush
                (alEnsure acc.1 (msg.thread_id.getD ""))
                (msg.thread_id.getD "") msg)).flatten := rfl
        rw [h1, Multiset.coe_eq_coe.mpr hpush]
        have h2 : ((((alValues (alEnsure acc.1
            (msg.thread_id.getD ""))).flatten ++ [msg] : List Message))
            : Multiset Message)
            = ↑(alValues (alEnsure acc.1
                (msg.thread_id.getD ""))).flatten + ↑[msg] := rfl
        rw [h2, alValues_alEnsure_flatten]
        have h3 : ((((acc.2 ++ (alValues acc.1).flatten) ++ [msg]
            : List Message)) : Multiset Message)
            = ↑acc.2 + ↑(alValues acc.1).flatten + ↑[msg] := rfl
        rw [h3]
        try abel
        try rfl
      · rw [if_neg ht]
        apply Multiset.coe_eq_coe.mp
        have h1 : (((acc.2 ++ [msg] ++ (alValues acc.1).flatten
            : List Message)) : Multiset Message)
            = ↑acc.2 + ↑[msg] + ↑(alValues acc.1).flatten := rfl
        have h2 : ((((acc.2 ++ (alValues acc.1).flatten) ++ [msg]
            : List Message)) : Multiset Message)
            = ↑acc.2 + ↑(alValues acc.1).flatten + ↑[msg] := rfl
        rw [h1, h2]
        try abel
        try rfl
    have hih := ih (classifyWebexStep acc msg)
    apply hih.trans
    apply Multiset.coe_eq_coe.mp
    have coeih := Multiset.coe_eq_coe.mpr key
    have h1 : ((((classifyWebexStep acc msg).2
        ++ (alValues (classifyWebexStep acc msg).1).flatten ++ ms)
        : List Message) : Multiset Message)
        = ↑((classifyWebexStep acc msg).2
            ++ (alValues (classifyWebexStep acc msg).1).flatten) + ↑ms := rfl
    have h2 : (((acc.2 ++ (alValues acc.1).flatten ++ (msg :: ms)
        : List Message)) : Multiset Message)
        = ↑(acc.2 ++ (alValues acc.1).flatten) + (↑[msg] + ↑ms) := rfl
    rw [h1, h2, coeih]
    have h3 : ((((acc.2 ++ (alValues acc.1).flatten) ++ [msg] : List Message))
        : Multiset Message)
        = ↑(acc.2 ++ (alValues acc.1).flatten) + ↑[msg] := rfl
    rw [h3]
    try abel
    try rfl

theorem emit_fold_perm :
    ∀ (tops : List Message) (out : List Message) (t : ThreadMap),
      (alKeys t).Nodup →
      List.Perm
        ((tops.foldl emitStep (out, t)).1
          ++ (alValues (tops.foldl emitStep (out, t)).2).flatten)
        (out ++ (alValues t).flatten ++ tops) := by
  intro tops
  induction tops with
  | nil =>
    intro out t _
    rw [List.foldl_nil, List.append_nil]
  | cons top ms ih =>
    intro out t hn
    rw [List.foldl_cons]
    match hg : alGet t top.id with
    | some thr =>
      have hstep : emitStep (out, t) top
          = (out ++ top :: thr, alErase t top.id) := by
        rw [emitStep]
        simp only [hg]
      rw [hstep]
      have hih := ih (out ++ top :: thr) (alErase t top.id)
        (alKeys_alErase_nodup t top.id hn)
      apply hih.trans
      have hvals := alErase_values_perm t top.id thr hn hg
      apply Multiset.coe_eq_coe.mp
      have h1 : (((out ++ top :: thr
          ++ (alValues (alErase t top.id)).flatten ++ ms : List Message))
          : Multiset Message)
          = ↑out + (↑[top] + ↑thr)
            + ↑(alValues (alErase t top.id)).flatten + ↑ms := rfl
      have h2 : (((out ++ (alValues t).flatten ++ (top :: ms)
          : List Message)) : Multiset Message)
          = ↑out + ↑(alValues t).flatten + (↑[top] + ↑ms) := rfl
      rw [h1, h2, Multiset.coe_eq_coe.mpr hvals]
      have h3 : (((thr ++ (alValues (alErase t top.id)).flatten
          : List Message)) : Multiset Message)
          = ↑thr + ↑(alValues (alErase t top.id)).flatten := rfl
      rw [h3]
      try abel
      try rfl
    | none =>
      have hstep : emitStep (out, t) top = (out ++ [top], t) := by
        rw [emitStep]
        simp only [hg]
      rw [hstep]
      have hih := ih (out ++ [top]) t hn
      apply hih.trans
      apply Multiset.coe_eq_coe.mp
      have h1 : (((out ++ [top] ++ (alValues t).flatten ++ ms
          : List Message)) : Multiset Message)
          = ↑out + ↑[top] + ↑(alValues t).flatten + ↑ms := rfl
      have h2 : (((out ++ (alValues t).flatten ++ (top :: ms)
          : List Message)) : Multiset Message)
          = ↑out + ↑(alValues t).flatten + (↑[top] + ↑ms) := rfl
      rw [h1, h2]
      try abel
      try rfl

theorem classifyTelegram_fold_nodup :
    ∀ (l : List Message) (acc : ThreadMap × List Message),
      (alKeys acc.1).Nodup →
      (alKeys (l.foldl classifyTelegramStep acc).1).Nodup := by
  intro l
  induction l with
  | nil => intro acc h; exact h
  | cons msg ms ih =>
    intro acc h
    rw [List.foldl_cons]
    apply ih
    rw [classifyTelegramStep]
    match hth : msg.thread_id with
    | none => simp only [hth]; exact h
    | some parent_id =>
      simp only [hth]
      by_cases hp : parent_id ≠ ""
      · rw [if_pos hp]
        by_cases hid : msg.id ≠ parent_id
        · rw [if_pos hid]
          simp only
          rw [alKeys_alPush]
          exact alKeys_alEnsure_nodup acc.1 parent_id h
        · rw [if_neg hid]
          exact alKeys_alEnsure_nodup acc.1 parent_id h
      · rw [if_neg hp]
        exact h

theorem classifyWebex_fold_nodup :
    ∀ (l : List Message) (acc : ThreadMap × List Message),
      (alKeys acc.1).Nodup →
      (alKeys (l.foldl classifyWebexStep acc).1).Nodup := by
  intro l
  induction l with
  | nil => intro acc h; exact h
  | cons msg ms ih =>
    intro acc h
    rw [List.foldl_cons]
    apply ih
    rw [classifyWebexStep]
    by_cases ht : truthyStr msg.thread_id
    · rw [if_pos ht]
      simp only
      rw [alKeys_alPush]
      exact alKeys_alEnsure_nodup acc.1 _ h
    · rw [if_neg ht]
      exact h

theorem alKeys_sortBuckets (t : ThreadMap) :
    alKeys (t.map (fun e => (e.1, sortByTs e.2))) = alKeys t := by
  rw [alKeys, alKeys, List.map_map]
  rfl

theorem alValues_sortBuckets_perm (t : ThreadMap) :
    List.Perm ((alValues (t.map (fun e => (e.1, sortByTs e.2)))).flatten)
      ((alValues t).flatten) := by
  induction t with
  | nil => rw [List.map_nil]
  | cons e tt ih =>
    rw [List.map_cons]
    have h1 : (alValues ((e.1, sortByTs e.2) :: tt.map
        (fun e => (e.1, sortByTs e.2)))).flatten
        = sortByTs e.2 ++ (alValues (tt.map
            (fun e => (e.1, sortByTs e.2)))).flatten := rfl
    have h2 : (alValues (e :: tt)).flatten
        = e.2 ++ (alValues tt).flatten := rfl
    rw [h1, h2]
    exact List.Perm.append (List.perm_insertionSort _ e.2) ih

theorem telegramTail_flatten_perm (t : ThreadMap) :
    List.Perm ((telegramTail t).flatten) ((alValues t).flatten) := by
  rw [telegramTail]
  exact (List.perm_insertionSort _ (alValues t)).flatten

theorem webexTail_flatten_perm (t : ThreadMap) :
    List.Perm ((webexTail t).flatten) ((alValues t).flatten) := by
  rw [webexTail]
  have h := (List.perm_insertionSort (fun a b => a.1 ≤ b.1) t).map Prod.snd
  exact (h.trans (by rw [alValues])).flatten

theorem emitThreads_perm (tailOf : ThreadMap → List (List Message))
    (htail : ∀ t, List.Perm ((tailOf t).flatten) ((alValues t).flatten))
    (threads : ThreadMap) (tops : List Message)
    (hn : (alKeys threads).Nodup) :
    List.Perm (emitThreads tailOf threads tops)
      (tops ++ (alValues threads).flatten) := by
  show List.Perm
    (((sortByTs tops).foldl emitStep
        ([], threads.map (fun e => (e.1, sortByTs e.2)))).1
      ++ (tailOf ((sortByTs tops).foldl emitStep
          ([], threads.map (fun e => (e.1, sortByTs e.2)))).2).flatten)
    (tops ++ (alValues threads).flatten)
  set threadsSorted : ThreadMap :=
    threads.map (fun e => (e.1, sortByTs e.2)) with hts
  set final := (sortByTs tops).foldl emitStep ([], threadsSorted) with hf
  have hfold := emit_fold_perm (sortByTs tops) [] threadsSorted
    (by rw [hts, alKeys_sortBuckets]; exact hn)
  have htail2 := htail final.2
  have step1 : List.Perm (final.1 ++ (tailOf final.2).flatten)
      (final.1 ++ (alValues final.2).flatten) :=
    List.Perm.append_left final.1 htail2
  apply step1.trans
  rw [← hf] at hfold
  apply hfold.trans
  rw [List.nil_append]
  apply List.Perm.trans List.perm_append_comm
  exact List.Perm.append (List.perm_insertionSort _ tops)
    (alValues_sortBuckets_perm threads)

theorem threadMessages_perm (l : List Message) :
    List.Perm (threadMessages l) (updateRoots l) := by
  have he : threadMessages l
      = emitThreads telegramTail (classifyTelegram (updateRoots l)).1
          (classifyTelegram (updateRoots l)).2 := rfl
  rw [he]
  have hn : (alKeys (classifyTelegram (updateRoots l)).1).Nodup := by
    rw [classifyTelegram]
    exact classifyTelegram_fold_nodup (updateRoots l) ([], []) (by simp [alKeys])
  have h1 := emitThreads_perm telegramTail telegramTail_flatten_perm
    (classifyTelegram (updateRoots l)).1 (classifyTelegram (updateRoots l)).2 hn
  apply h1.trans
  have h2 := classifyTelegram_fold_perm (updateRoots l) ([], [])
  rw [classifyTelegram]
  simpa using h2

theorem webexThreadMessages_perm (l : List Message) :
    List.Perm (webexThreadMessages l) l := by
  have he : webexThreadMessages l
      = emitThreads webexTail (classifyWebex l).1 (classifyWebex l).2 := rfl
  rw [he]
  have hn : (alKeys (classifyWebex l).1).Nodup := by
    rw [classifyWebex]
    exact classifyWebex_fold_nodup l ([], []) (by simp [alKeys])
  have h1 := emitThreads_perm webexTail webexTail_flatten_perm
    (classifyWebex l).1 (classifyWebex l).2 hn
  apply h1.trans
  have h2 := classifyWebex_fold_perm l ([], [])
  rw [classifyWebex]
  simpa using h2

theorem updateRoots_strip (l : List Message) :
    (updateRoots l).map stripThread = l.map stripThread := by
  rw [updateRoots, List.map_map]
  apply List.map_congr_left
  intro m _
  by_cases h : truthyStr m.thread_id <;> simp [Function.comp, h, stripThread]

/-- C10: threading is a permutation.  The Telegram threading/ordering pass
returns exactly the root-resolved messages, each exactly once — `updateRoots`
only rewrites `thread_id` fields (stripping `thread_id` recovers the merged
input pointwise) — and the Webex pass returns a permutation of its input
unchanged.  No message is dropped or duplicated, whether it ends up
top-level, as a thread descendant, or in the leftover tail. -/
theorem C10_threading_permutation :
    ∀ l : List Message,
      List.Perm (threadMessages l) (updateRoots l)
      ∧ (updateRoots l).map stripThread = l.map stripThread
      ∧ List.Perm (webexThreadMessages l) l := by
  intro l
  exact ⟨threadMessages_perm l, updateRoots_strip l, webexThreadMessages_perm l⟩

/-! ## Characterizing the Telegram grouping loop -/

theorem classifyTelegram_fold_tops :
    ∀ (l : List Message) (acc : ThreadMap × List Message),
      (l.foldl classifyTelegramStep acc).2 = acc.2 ++ l.filter isTopMsg := by
  intro l
  induction l with
  | nil => intro acc; simp
  | cons msg ms ih =>
    intro acc
    rw [List.foldl_cons, ih]
    rw [classifyTelegramStep]
    match hth : msg.thread_id with
    | none =>
      simp only
      rw [List.filter_cons_of_pos (by simp [isTopMsg, hth])]
      simp
    | some parent_id =>
      simp only
      by_cases hp : parent_id ≠ ""
      · rw [if_pos hp]
        by_cases hid : msg.id ≠ parent_id
        · rw [if_pos hid]
          simp only
          rw [List.filter_cons_of_neg (by simp [isTopMsg, hth, hp]; exact hid)]
        · rw [if_neg hid]
          simp only
          rw [List.filter_cons_of_pos
            (by simp [isTopMsg, hth, hp]; simpa using hid)]
          simp
      · rw [if_neg hp]
        rw [List.filter_cons_of_pos (by simp [isTopMsg, hth, hp])]
        simp

theorem classifyTelegram_fold_threads :
    ∀ (l : List Message) (acc : ThreadMap × List Message) (p : String),
      alGet (l.foldl classifyTelegramStep acc).1 p
        = match alGet acc.1 p with
          | some v => some (v ++ bucketOf l p)
          | none =>
            if keyMade l p then some (bucketOf l p) else none := by
  intro l
  induction l with
  | nil =>
    intro acc p
    match h : alGet acc.1 p with
    | some v => simp [bucketOf, h]
    | none => simp [bucketOf, keyMade, h]
  | cons msg ms ih =>
    intro acc p
    rw [List.foldl_cons, ih]
    have hbk : ∀ b : Bool, b = (resolvedParent msg = some p
        && ¬ msg.id = p : Bool) →
        bucketOf (msg :: ms) p
          = if b then msg :: bucketOf ms p else bucketOf ms p := by
      intro b hb
      rw [bucketOf, List.filter_cons, ← hb]
      cases b
      · rfl
      · rfl
    have hkm : keyMade (msg :: ms) p
        = ((resolvedParent msg = some p : Bool) || keyMade ms p) := by
      rw [keyMade, List.any_cons, keyMade]
    rw [classifyTelegramStep]
    match hth : msg.thread_id with
    | none =>
      simp only
      have hrp : resolvedParent msg = none := by rw [resolvedParent, hth]
      rw [hbk false (by simp [hrp]), hkm]
      simp [hrp]
    | some parent_id =>
      simp only
      have hrp : resolvedParent msg
          = if parent_id ≠ "" then some parent_id else none := by
        rw [resolvedParent, hth]
      by_cases hp : parent_id ≠ ""
      · rw [if_pos hp]
        rw [if_pos hp] at hrp
        by_cases hid : msg.id ≠ parent_id
        · rw [if_pos hid]
          simp only
          by_cases hpp : parent_id = p
          · subst hpp
            have hcond : (resolvedParent msg = some parent_id
                && ¬ msg.id = parent_id : Bool) = true := by
              simp [hrp]
              simpa using hid
            rw [hbk true hcond.symm, hkm]
            match hacc : alGet acc.1 parent_id with
            | some v =>
              rw [alGet_alPush_self, alGet_alEnsure_self, hacc]
              simp [List.append_assoc]
            | none =>
              rw [alGet_alPush_self, alGet_alEnsure_self, hacc]
              simp [hrp]
          · have hcond : (resolvedParent msg = some p
                && ¬ msg.id = p : Bool) = false := by
              simp [hrp]
              intro c
              exact absurd c hpp
            have hnePP : p ≠ parent_id := fun c => hpp c.symm
            rw [hbk false hcond.symm, hkm]
            rw [alGet_alPush_other _ _ _ _ hnePP,
              alGet_alEnsure_other _ _ _ hnePP]
            have : (resolvedParent msg = some p : Bool) = false := by
              simp [hrp]
              intro c
              exact absurd c hpp
            rw [this]
            simp
        · rw [if_neg hid]
          simp only
          have hid' : msg.id = parent_id := Decidable.not_not.mp hid
          by_cases hpp : parent_id = p
          · subst hpp
            have hcond : (resolvedParent msg = some parent_id
                && ¬ msg.id = parent_id : Bool) = false := by
              simp [hid']
            rw [hbk false hcond.symm, hkm]
            match hacc : alGet acc.1 parent_id with
            | some v =>
              rw [alEnsure_of_isSome acc.1 parent_id v hacc, hacc]
              simp
            | none =>
              rw [alEnsure_of_none acc.1 parent_id hacc,
                alGet_append_right acc.1 _ _ hacc, alGet_cons]
              simp [hrp]
          · have hcond : (resolvedParent msg = some p
                && ¬ msg.id = p : Bool) = false := by
              simp [hrp]
              intro c
              exact absurd c hpp
            have hnePP : p ≠ parent_id := fun c => hpp c.symm
            rw [hbk false hcond.symm, hkm]
            rw [alGet_alEnsure_other _ _ _ hnePP]
            have : (resolvedParent msg = some p : Bool) = false := by
              simp [hrp]
              intro c
              exact absurd c hpp
            rw [this]
            simp
      · rw [if_neg hp]
        rw [if_neg hp] at hrp
        have hcond : (resolvedParent msg = some p && ¬ msg.id = p : Bool)
            = false := by simp [hrp]
        rw [hbk false hcond.symm, hkm]
        simp [hrp]

/-! ## Determinism of the threading pass under permutation -/

theorem sorted_perm_eq {α : Type} (key : α → Int) :
    ∀ (l₁ l₂ : List α), List.Perm l₁ l₂ →
    List.Pairwise (fun a b => key a ≤ key b) l₁ →
    List.Pairwise (fun a b => key a ≤ key b) l₂ →
    (∀ a ∈ l₁, ∀ b ∈ l₂, key a = key b → a = b) →
    l₁ = l₂ := by
  intro l₁
  induction l₁ with
  | nil =>
    intro l₂ hp _ _ _
    exact (List.nil_perm.mp hp).symm
  | cons a t₁ ih =>
    intro l₂ hp hs₁ hs₂ hinj
    match l₂ with
    | [] => exact absurd (List.nil_perm.mp hp.symm) (by simp)
    | b :: t₂ =>
      have hab : a = b := by
        have hma : a ∈ b :: t₂ := hp.mem_iff.mp (List.mem_cons_self _ _)
        have hmb : b ∈ a :: t₁ := hp.mem_iff.mpr (List.mem_cons_self _ _)
        have hba : key b ≤ key a := by
          rcases List.mem_cons.mp hma with rfl | hin
          · exact le_refl _
          · exact (List.pairwise_cons.mp hs₂).1 a hin
        have hab' : key a ≤ key b := by
          rcases List.mem_cons.mp hmb with rfl | hin
          · exact le_refl _
          · exact (List.pairwise_cons.mp hs₁).1 b hin
        exact hinj a (List.mem_cons_self _ _) b (List.mem_cons_self _ _)
          (le_antisymm hab' hba)
      subst hab
      have hp' : List.Perm t₁ t₂ := hp.cons_inv
      have ht := ih t₂ hp' (List.pairwise_cons.mp hs₁).2
        (List.pairwise_cons.mp hs₂).2
        (fun x hx y hy => hinj x (List.mem_cons_of_mem _ hx)
          y (List.mem_cons_of_mem _ hy))
      rw [ht]

theorem findById_characterization (l : List Message) (i : String)
    (hnd : (l.map Message.id).Nodup) (m : Message) :
    findById l i = some m ↔ (m ∈ l ∧ m.id = i) := by
  constructor
  · intro h
    have hm := List.mem_of_find?_eq_some h
    have hp := List.find?_some h
    rw [List.mem_reverse] at hm
    exact ⟨hm, by simpa using hp⟩
  · rintro ⟨hm, hid⟩
    match hf : findById l i with
    | none =>
      rw [findById, List.find?_eq_none] at hf
      exact absurd (by simpa using hf m (List.mem_reverse.mpr hm)) (by simp [hid])
    | some x =>
      have hxm := List.mem_of_find?_eq_some hf
      have hxp := List.find?_some hf
      rw [List.mem_reverse] at hxm
      have hxi : x.id = i := by simpa using hxp
      have : x = m := List.inj_on_of_nodup_map hnd hxm hm (by rw [hxi, hid])
      rw [this]

theorem findById_eq_of_perm (l l' : List Message) (hp : List.Perm l l')
    (hnd : (l.map Message.id).Nodup) (i : String) :
    findById l i = findById l' i := by
  have hnd' : (l'.map Message.id).Nodup := (hp.map Message.id).nodup_iff.mp hnd
  match h : findById l i with
  | some m =>
    have := (findById_characterization l i hnd m).mp h
    exact ((findById_characterization l' i hnd' m).mpr
      ⟨hp.mem_iff.mp this.1, this.2⟩).symm
  | none =>
    match h' : findById l' i with
    | none => rfl
    | some m =>
      have := (findById_characterization l' i hnd' m).mp h'
      have hc := (findById_characterization l i hnd m).mpr
        ⟨hp.mem_iff.mpr this.1, this.2⟩
      rw [h] at hc
      cases hc

theorem hasId_eq_of_perm (l l' : List Message) (hp : List.Perm l l')
    (i : String) : hasId l i = hasId l' i := by
  rw [hasId, hasId]
  by_cases h : ∃ m ∈ l, m.id = i
  · have h' : ∃ m ∈ l', m.id = i := by
      rcases h with ⟨m, hm, hi⟩
      exact ⟨m, hp.mem_iff.mp hm, hi⟩
    rw [List.any_eq_true.mpr (by simpa using h),
      List.any_eq_true.mpr (by simpa using h')]
  · have h' : ¬ ∃ m ∈ l', m.id = i := by
      intro c
      rcases c with ⟨m, hm, hi⟩
      exact h ⟨m, hp.mem_iff.mpr hm, hi⟩
    rw [List.any_eq_false.mpr (by simpa using h),
      List.any_eq_false.mpr (by simpa using h')]

theorem replyToFn_eq_of_perm (l l' : List Message) (hp : List.Perm l l')
    (hnd : (l.map Message.id).Nodup) (i : String) :
    replyToFn l i = replyToFn l' i := by
  rw [replyToFn, replyToFn, findById_eq_of_perm l l' hp hnd i]

theorem resolve_root_eq_of_perm (l l' : List Message) (hp : List.Perm l l')
    (hnd : (l.map Message.id).Nodup) (s : String) :
    resolve_root l s = resolve_root l' s := by
  rw [resolve_root, resolve_root,
    funext (replyToFn_eq_of_perm l l' hp hnd),
    funext (hasId_eq_of_perm l l' hp), hp.length_eq]

theorem updateRoots_perm (l l' : List Message) (hp : List.Perm l l')
    (hnd : (l.map Message.id).Nodup) :
    List.Perm (updateRoots l) (updateRoots l') := by
  rw [updateRoots, updateRoots]
  apply List.Perm.trans (hp.map _)
  have he : l'.map (fun (m : Message) => if truthyStr m.thread_id then
        { m with thread_id := some (resolve_root l m.id).1 } else m)
      = l'.map (fun (m : Message) => if truthyStr m.thread_id then
        { m with thread_id := some (resolve_root l' m.id).1 } else m) :=
    List.map_congr_left
      (fun m _ => by rw [resolve_root_eq_of_perm l l' hp hnd])
  rw [he]

theorem alGet_map_vals {κ α β : Type} [DecidableEq κ]
    (t : List (κ × α)) (f : α → β) (k : κ) :
    alGet (t.map (fun e => (e.1, f e.2))) k = (alGet t k).map f := by
  induction t with
  | nil => rfl
  | cons e tt ih =>
    rw [List.map_cons, alGet_cons, alGet_cons]
    by_cases he : e.1 = k
    · rw [if_pos he, if_pos he]
      rfl
    · rw [if_neg he, if_neg he]
      exact ih

theorem alGet_of_mem {κ α : Type} [DecidableEq κ]
    (t : List (κ × α)) (e : κ × α) (hn : (alKeys t).Nodup) (he : e ∈ t) :
    alGet t e.1 = some e.2 := by
  induction t with
  | nil => cases he
  | cons a tt ih =>
    rw [alKeys, List.map_cons, List.nodup_cons] at hn
    rcases List.mem_cons.mp he with rfl | hmem
    · rw [alGet_cons, if_pos rfl]
    · rw [alGet_cons]
      by_cases ha : a.1 = e.1
      · exact absurd (ha ▸ List.mem_map.mpr ⟨e, hmem, rfl⟩) hn.1
      · rw [if_neg ha]
        exact ih hn.2 hmem

theorem mem_of_alGet {κ α : Type} [DecidableEq κ]
    (t : List (κ × α)) (k : κ) (v : α) (hg : alGet t k = some v) :
    (k, v) ∈ t := by
  induction t with
  | nil => cases hg
  | cons a tt ih =>
    rw [alGet_cons] at hg
    by_cases ha : a.1 = k
    · rw [if_pos ha] at hg
      have hav : a = (k, v) := by
        have h2 : a.2 = v := Option.some.inj hg
        cases a
        simp only at ha h2
        rw [ha, h2]
      rw [← hav]
      exact List.mem_cons_self _ _
    · rw [if_neg ha] at hg
      exact List.mem_cons_of_mem _ (ih hg)

theorem alist_perm_of_lookup_eq {κ α : Type} [DecidableEq κ]
    (t1 t2 : List (κ × α)) (hn1 : (alKeys t1).Nodup)
    (hn2 : (alKeys t2).Nodup) (h : ∀ p, alGet t1 p = alGet t2 p) :
    List.Perm t1 t2 := by
  apply (List.perm_ext_iff_of_nodup (List.Nodup.of_map _ hn1)
    (List.Nodup.of_map _ hn2)).mpr
  intro e
  constructor
  · intro he
    have := alGet_of_mem t1 e hn1 he
    rw [h e.1] at this
    have hm := mem_of_alGet t2 e.1 e.2 this
    simpa using hm
  · intro he
    have := alGet_of_mem t2 e hn2 he
    rw [← h e.1] at this
    have hm := mem_of_alGet t1 e.1 e.2 this
    simpa using hm

theorem emit_fold_snd_sublist :
    ∀ (tops : List Message) (out : List Message) (t : ThreadMap),
      ((tops.foldl emitStep (out, t)).2).Sublist t := by
  intro tops
  induction tops with
  | nil => intro out t; exact List.Sublist.refl _
  | cons top ms ih =>
    intro out t
    rw [List.foldl_cons]
    match hg : alGet t top.id with
    | some thr =>
      have hstep : emitStep (out, t) top
          = (out ++ top :: thr, alErase t top.id) := by
        rw [emitStep]; simp only [hg]
      rw [hstep]
      exact (ih _ _).trans (List.filter_sublist t)
    | none =>
      have hstep : emitStep (out, t) top = (out ++ [top], t) := by
        rw [emitStep]; simp only [hg]
      rw [hstep]
      exact ih _ _

theorem updateRoots_map_id (l : List Message) :
    (updateRoots l).map Message.id = l.map Message.id := by
  rw [updateRoots, List.map_map]
  apply List.map_congr_left
  intro m _
  by_cases h : truthyStr m.thread_id <;> simp [Function.comp, h]

theorem updateRoots_map_ts (l : List Message) :
    (updateRoots l).map Message.timestamp = l.map Message.timestamp := by
  rw [updateRoots, List.map_map]
  apply List.map_congr_left
  intro m _
  by_cases h : truthyStr m.thread_id <;> simp [Function.comp, h]

theorem keyMade_eq_of_perm (u1 u2 : List Message)
    (hp : List.Perm u1 u2) (p : String) :
    keyMade u1 p = keyMade u2 p := by
  rw [keyMade, keyMade]
  by_cases h : ∃ m ∈ u1, resolvedParent m = some p
  · rw [List.any_eq_true.mpr (by simpa using h),
      List.any_eq_true.mpr (by
        rcases h with ⟨m, hm, hr⟩
        simpa using ⟨m, hp.mem_iff.mp hm, hr⟩)]
  · rw [List.any_eq_false.mpr (by simpa using h),
      List.any_eq_false.mpr (by
        simp only [decide_eq_true_eq]
        intro m hm hr
        exact h ⟨m, hp.mem_iff.mpr hm, hr⟩)]

theorem sortByTs_sorted (l : List Message) :
    List.Pairwise (fun a b => a.timestamp ≤ b.timestamp) (sortByTs l) := by
  haveI : IsTotal Message (fun a b : Message => a.timestamp ≤ b.timestamp) :=
    ⟨fun a b => le_total _ _⟩
  haveI : IsTrans Message (fun a b : Message => a.timestamp ≤ b.timestamp) :=
    ⟨fun _ _ _ h1 h2 => le_trans h1 h2⟩
  exact List.sorted_insertionSort _ l

theorem telegramTail_sorted (t : ThreadMap) :
    List.Pairwise (fun a b => earliestTs a ≤ earliestTs b)
      (telegramTail t) := by
  haveI : IsTotal (List Message)
      (fun a b : List Message => earliestTs a ≤ earliestTs b) :=
    ⟨fun a b => le_total _ _⟩
  haveI : IsTrans (List Message)
      (fun a b : List Message => earliestTs a ≤ earliestTs b) :=
    ⟨fun _ _ _ h1 h2 => le_trans h1 h2⟩
  exact List.sorted_insertionSort _ (alValues t)

theorem emit_fold_congr :
    ∀ (tops : List Message) (out : List Message) (t1 t2 : ThreadMap),
      (alKeys t1).Nodup → (alKeys t2).Nodup →
      (∀ p, alGet t1 p = alGet t2 p) →
      ((tops.foldl emitStep (out, t1)).1 = (tops.foldl emitStep (out, t2)).1
        ∧ (∀ p, alGet (tops.foldl emitStep (out, t1)).2 p
            = alGet (tops.foldl emitStep (out, t2)).2 p)) := by
  intro tops
  induction tops with
  | nil => intro out t1 t2 _ _ h; exact ⟨rfl, h⟩
  | cons top ms ih =>
    intro out t1 t2 hn1 hn2 h
    rw [List.foldl_cons, List.foldl_cons]
    match hg : alGet t1 top.id with
    | some thr =>
      have hg2 : alGet t2 top.id = some thr := by rw [← h, hg]
      have hstep1 : emitStep (out, t1) top
          = (out ++ top :: thr, alErase t1 top.id) := by
        rw [emitStep]; simp only [hg]
      have hstep2 : emitStep (out, t2) top
          = (out ++ top :: thr, alErase t2 top.id) := by
        rw [emitStep]; simp only [hg2]
      rw [hstep1, hstep2]
      exact ih _ _ _ (alKeys_alErase_nodup t1 top.id hn1)
        (alKeys_alErase_nodup t2 top.id hn2)
        (fun p => by rw [alGet_alErase, alGet_alErase, h p])
    | none =>
      have hg2 : alGet t2 top.id = none := by rw [← h, hg]
      have hstep1 : emitStep (out, t1) top = (out ++ [top], t1) := by
        rw [emitStep]; simp only [hg]
      have hstep2 : emitStep (out, t2) top = (out ++ [top], t2) := by
        rw [emitStep]; simp only [hg2]
      rw [hstep1, hstep2]
      exact ih _ _ _ hn1 hn2 h

theorem emit_fold_no_empty :
    ∀ (tops : List Message) (out : List Message) (t : ThreadMap),
      (∀ p, alGet t p = some [] → ∃ top ∈ tops, top.id = p) →
      ∀ p, ¬ alGet (tops.foldl emitStep (out, t)).2 p = some [] := by
  intro tops
  induction tops with
  | nil =>
    intro out t hinv p hc
    rcases hinv p hc with ⟨top, htop, _⟩
    cases htop
  | cons top ms ih =>
    intro out t hinv p hc
    rw [List.foldl_cons] at hc
    match hg : alGet t top.id with
    | some thr =>
      have hstep : emitStep (out, t) top
          = (out ++ top :: thr, alErase t top.id) := by
        rw [emitStep]; simp only [hg]
      rw [hstep] at hc
      refine ih _ _ ?_ p hc
      intro q hq
      rw [alGet_alErase] at hq
      by_cases hqt : q = top.id
      · rw [if_pos hqt] at hq; cases hq
      · rw [if_neg hqt] at hq
        rcases hinv q hq with ⟨w, hw, hwid⟩
        rcases List.mem_cons.mp hw with rfl | hw2
        · exact absurd hwid.symm hqt
        · exact ⟨w, hw2, hwid⟩
    | none =>
      have hstep : emitStep (out, t) top = (out ++ [top], t) := by
        rw [emitStep]; simp only [hg]
      rw [hstep] at hc
      refine ih _ _ ?_ p hc
      intro q hq
      rcases hinv q hq with ⟨w, hw, hwid⟩
      rcases List.mem_cons.mp hw with rfl | hw2
      · rw [hwid] at hg
        rw [hg] at hq
        cases hq
      · exact ⟨w, hw2, hwid⟩

theorem classifyTelegram_tops_eq (u : List Message) :
    (classifyTelegram u).2 = u.filter isTopMsg := by
  rw [classifyTelegram, classifyTelegram_fold_tops]
  simp

theorem classifyTelegram_threads_eq (u : List Message) (p : String) :
    alGet (classifyTelegram u).1 p
      = if keyMade u p then some (bucketOf u p) else none := by
  rw [classifyTelegram, classifyTelegram_fold_threads]
  simp only [alGet_nil]

theorem threadMessages_eq_of_perm (l1 l2 : List Message)
    (hp : List.Perm l1 l2) (hids : (l1.map Message.id).Nodup)
    (hts : (l1.map Message.timestamp).Nodup) :
    threadMessages l1 = threadMessages l2 := by
  have hup : List.Perm (updateRoots l1) (updateRoots l2) :=
    updateRoots_perm l1 l2 hp hids
  have hts1 : ((updateRoots l1).map Message.timestamp).Nodup := by
    rw [updateRoots_map_ts]; exact hts
  set u1 := updateRoots l1 with hu1
  set u2 := updateRoots l2 with hu2
  -- sorted filters of u1 and u2 agree
  have hfil : ∀ f : Message → Bool,
      sortByTs (u1.filter f) = sortByTs (u2.filter f) := by
    intro f
    apply sorted_perm_eq Message.timestamp
    · exact (List.perm_insertionSort _ _).trans
        ((hup.filter f).trans (List.perm_insertionSort _ _).symm)
    · exact sortByTs_sorted _
    · exact sortByTs_sorted _
    · intro a ha b hb hab
      have ha' : a ∈ u1 :=
        List.mem_of_mem_filter ((List.perm_insertionSort _ _).mem_iff.mp ha)
      have hb' : b ∈ u1 := hup.mem_iff.mpr
        (List.mem_of_mem_filter ((List.perm_insertionSort _ _).mem_iff.mp hb))
      exact List.inj_on_of_nodup_map hts1 ha' hb' hab
  -- the two runs' sorted top-level lists agree
  have hTops : sortByTs (classifyTelegram u1).2
      = sortByTs (classifyTelegram u2).2 := by
    rw [classifyTelegram_tops_eq, classifyTelegram_tops_eq]
    exact hfil isTopMsg
  -- the two runs' sorted buckets agree, lookup-wise
  have hBucket : ∀ p, sortByTs (bucketOf u1 p) = sortByTs (bucketOf u2 p) := by
    intro p
    rw [bucketOf, bucketOf]
    exact hfil _
  have hLook : ∀ p,
      alGet ((classifyTelegram u1).1.map (fun e => (e.1, sortByTs e.2))) p
        = alGet ((classifyTelegram u2).1.map (fun e => (e.1, sortByTs e.2))) p := by
    intro p
    rw [alGet_map_vals, alGet_map_vals, classifyTelegram_threads_eq,
      classifyTelegram_threads_eq, keyMade_eq_of_perm u1 u2 hup p]
    by_cases hk : keyMade u2 p
    · rw [if_pos hk, if_pos hk]
      simp only [Option.map]
      rw [hBucket p]
    · rw [if_neg hk, if_neg hk]
  -- nodup keys of the sorted thread maps
  have hn1 : (alKeys ((classifyTelegram u1).1.map
      (fun e => (e.1, sortByTs e.2)))).Nodup := by
    rw [alKeys_sortBuckets, classifyTelegram]
    exact classifyTelegram_fold_nodup u1 ([], []) (by simp [alKeys])
  have hn2 : (alKeys ((classifyTelegram u2).1.map
      (fun e => (e.1, sortByTs e.2)))).Nodup := by
    rw [alKeys_sortBuckets, classifyTelegram]
    exact classifyTelegram_fold_nodup u2 ([], []) (by simp [alKeys])
  -- the no-surviving-empty-bucket precondition, for each run
  have hpre : ∀ (u : List Message) (p : String),
      alGet ((classifyTelegram u).1.map (fun e => (e.1, sortByTs e.2))) p
        = some [] →
      ∃ top ∈ sortByTs (classifyTelegram u).2, top.id = p := by
    intro u p hq
    rw [alGet_map_vals, classifyTelegram_threads_eq] at hq
    by_cases hk : keyMade u p
    · rw [if_pos hk] at hq
      simp only [Option.map] at hq
      have hbempty : bucketOf u p = [] := by
        have := Option.some.inj hq
        have hlen := congrArg List.length this
        rw [sortByTs, List.length_insertionSort] at hlen
        exact List.eq_nil_of_length_eq_zero hlen
      rcases List.any_eq_true.mp hk with ⟨m, hm, hmr⟩
      rw [decide_eq_true_eq] at hmr
      have hmid : m.id = p := by
        by_contra hne
        have : m ∈ bucketOf u p := by
          rw [bucketOf]
          apply List.mem_filter.mpr
          exact ⟨hm, by simp [hmr, hne]⟩
        rw [hbempty] at this
        cases this
      refine ⟨m, ?_, hmid⟩
      rw [classifyTelegram_tops_eq]
      apply (List.perm_insertionSort _ _).mem_iff.mpr
      apply List.mem_filter.mpr
      refine ⟨hm, ?_⟩
      rw [isTopMsg]
      rw [resolvedParent] at hmr
      cases hth : m.thread_id with
      | none => rfl
      | some q =>
        simp only [hth] at hmr
        by_cases hq' : q ≠ ""
        · rw [if_pos hq'] at hmr
          have hqp : q = p := Option.some.inj hmr
          simp [hq', hqp, hmid]
        · rw [if_neg hq'] at hmr; cases hmr
    · rw [if_neg hk] at hq
      cases hq
  -- run the emission fold once for each side, with equal inputs
  have hcong := emit_fold_congr (sortByTs (classifyTelegram u2).2) []
    ((classifyTelegram u1).1.map (fun e => (e.1, sortByTs e.2)))
    ((classifyTelegram u2).1.map (fun e => (e.1, sortByTs e.2)))
    hn1 hn2 hLook
  -- entry characterization used for the tail injectivity, run 1
  have hne1 : ∀ p, ¬ alGet ((sortByTs (classifyTelegram u2).2).foldl emitStep
      ([], (classifyTelegram u1).1.map (fun e => (e.1, sortByTs e.2)))).2 p
        = some [] := by
    intro p
    apply emit_fold_no_empty
    intro q hq
    rcases hpre u1 q hq with ⟨top, htm, hti⟩
    exact ⟨top, hTops ▸ htm, hti⟩
  have hne2 : ∀ p, ¬ alGet ((sortByTs (classifyTelegram u2).2).foldl emitStep
      ([], (classifyTelegram u2).1.map (fun e => (e.1, sortByTs e.2)))).2 p
        = some [] := by
    intro p
    apply emit_fold_no_empty
    intro q hq
    exact hpre u2 q hq
  have hsub1 : (((sortByTs (classifyTelegram u2).2).foldl emitStep
      ([], (classifyTelegram u1).1.map (fun e => (e.1, sortByTs e.2)))).2).Sublist
      ((classifyTelegram u1).1.map (fun e => (e.1, sortByTs e.2))) :=
    emit_fold_snd_sublist _ _ _
  have hsub2 : (((sortByTs (classifyTelegram u2).2).foldl emitStep
      ([], (classifyTelegram u2).1.map (fun e => (e.1, sortByTs e.2)))).2).Sublist
      ((classifyTelegram u2).1.map (fun e => (e.1, sortByTs e.2))) :=
    emit_fold_snd_sublist _ _ _
  have hnF1 : (alKeys (((sortByTs (classifyTelegram u2).2).foldl emitStep
      ([], (classifyTelegram u1).1.map (fun e => (e.1, sortByTs e.2)))).2)).Nodup := by
    rw [alKeys]
    rw [alKeys] at hn1
    exact List.Nodup.sublist (hsub1.map Prod.fst) hn1
  have hnF2 : (alKeys (((sortByTs (classifyTelegram u2).2).foldl emitStep
      ([], (classifyTelegram u2).1.map (fun e => (e.1, sortByTs e.2)))).2)).Nodup := by
    rw [alKeys]
    rw [alKeys] at hn2
    exact List.Nodup.sublist (hsub2.map Prod.fst) hn2
  have hpermF : List.Perm
      (((sortByTs (classifyTelegram u2).2).foldl emitStep
        ([], (classifyTelegram u1).1.map (fun e => (e.1, sortByTs e.2)))).2)
      (((sortByTs (classifyTelegram u2).2).foldl emitStep
        ([], (classifyTelegram u2).1.map (fun e => (e.1, sortByTs e.2)))).2) :=
    alist_perm_of_lookup_eq _ _ hnF1 hnF2 hcong.2
  -- both leftover tails are equal as sorted lists
  have htail : telegramTail (((sortByTs (classifyTelegram u2).2).foldl emitStep
        ([], (classifyTelegram u1).1.map (fun e => (e.1, sortByTs e.2)))).2)
      = telegramTail (((sortByTs (classifyTelegram u2).2).foldl emitStep
        ([], (classifyTelegram u2).1.map (fun e => (e.1, sortByTs e.2)))).2) := by
    apply sorted_perm_eq earliestTs
    · rw [telegramTail, telegramTail]
      exact (List.perm_insertionSort _ _).trans
        ((hpermF.map _).trans (List.perm_insertionSort _ _).symm)
    · exact telegramTail_sorted _
    · exact telegramTail_sorted _
    · intro a ha b hb hab
      -- every tail bucket is some nonempty sorted u1-bucket
      have hA : ∃ k, a = sortByTs (bucketOf u1 k) ∧ a ≠ [] := by
        rw [telegramTail] at ha
        have ha2 := (List.perm_insertionSort _ _).mem_iff.mp ha
        rw [alValues] at ha2
        rcases List.mem_map.mp ha2 with ⟨e, he, hev⟩
        have hgF := alGet_of_mem _ e hnF1 he
        have hgM := alGet_of_mem _ e hn1 (hsub1.subset he)
        rw [alGet_map_vals, classifyTelegram_threads_eq] at hgM
        by_cases hk : keyMade u1 e.1
        · rw [if_pos hk] at hgM
          simp only [Option.map] at hgM
          refine ⟨e.1, ?_, ?_⟩
          · rw [← hev]
            exact (Option.some.inj hgM).symm
          · intro hnil
            rw [hnil] at hev
            rw [hev] at hgF
            exact hne1 e.1 hgF
        · rw [if_neg hk] at hgM
          cases hgM
      have hB : ∃ k, b = sortByTs (bucketOf u1 k) ∧ b ≠ [] := by
        rw [telegramTail] at hb
        have hb2 := (List.perm_insertionSort _ _).mem_iff.mp hb
        rw [alValues] at hb2
        rcases List.mem_map.mp hb2 with ⟨e, he, hev⟩
        have hgF := alGet_of_mem _ e hnF2 he
        have hgM := alGet_of_mem _ e hn2 (hsub2.subset he)
        rw [alGet_map_vals, classifyTelegram_threads_eq] at hgM
        by_cases hk : keyMade u2 e.1
        · rw [if_pos hk] at hgM
          simp only [Option.map] at hgM
          refine ⟨e.1, ?_, ?_⟩
          · rw [← hev, hBucket e.1]
            exact (Option.some.inj hgM).symm
          · intro hnil
            rw [hnil] at hev
            rw [hev] at hgF
            exact hne2 e.1 hgF
        · rw [if_neg hk] at hgM
          cases hgM
      rcases hA with ⟨k, hak, hane⟩
      rcases hB with ⟨k2, hbk, hbne⟩
      match a, hane with
      | x :: xs, _ =>
      match b, hbne with
      | y :: ys, _ =>
      have hxmemb : x ∈ bucketOf u1 k := by
        have : x ∈ sortByTs (bucketOf u1 k) := by
          rw [← hak]; exact List.mem_cons_self _ _
        exact (List.perm_insertionSort _ _).mem_iff.mp this
      have hymemb : y ∈ bucketOf u1 k2 := by
        have : y ∈ sortByTs (bucketOf u1 k2) := by
          rw [← hbk]; exact List.mem_cons_self _ _
        exact (List.perm_insertionSort _ _).mem_iff.mp this
      have hxm := List.mem_filter.mp hxmemb
      have hym := List.mem_filter.mp hymemb
      have hts_eq : x.timestamp = y.timestamp := by
        rw [earliestTs, earliestTs] at hab
        exact hab
      have hxy : x = y :=
        List.inj_on_of_nodup_map hts1 hxm.1 hym.1 hts_eq
      have hkx : resolvedParent x = some k := by
        have := hxm.2
        simp only [Bool.and_eq_true, decide_eq_true_eq] at this
        exact this.1
      have hky : resolvedParent x = some k2 := by
        have := hym.2
        simp only [Bool.and_eq_true, decide_eq_true_eq] at this
        rw [hxy]
        exact this.1
      have hkk : k = k2 := Option.some.inj ((hkx.symm).trans hky)
      rw [hak, hbk, hkk]
  -- reassemble the two pipelines
  have e1 : threadMessages l1
      = ((sortByTs (classifyTelegram u1).2).foldl emitStep
          ([], (classifyTelegram u1).1.map (fun e => (e.1, sortByTs e.2)))).1
        ++ (telegramTail (((sortByTs (classifyTelegram u1).2).foldl emitStep
          ([], (classifyTelegram u1).1.map (fun e => (e.1, sortByTs e.2)))).2)).flatten := rfl
  have e2 : threadMessages l2
      = ((sortByTs (classifyTelegram u2).2).foldl emitStep
          ([], (classifyTelegram u2).1.map (fun e => (e.1, sortByTs e.2)))).1
        ++ (telegramTail (((sortByTs (classifyTelegram u2).2).foldl emitStep
          ([], (classifyTelegram u2).1.map (fun e => (e.1, sortByTs e.2)))).2)).flatten := rfl
  rw [e1, e2, hTops, hcong.1, htail]

theorem dedupGo_eq_self :
    ∀ (l : List Message) (s : List String),
      (l.map Message.id).Nodup → (∀ m ∈ l, m.id ∉ s) → dedupGo s l = l := by
  intro l
  induction l with
  | nil => intro s _ _; rfl
  | cons m ms ih =>
    intro s hnd hdis
    rw [List.map_cons, List.nodup_cons] at hnd
    rw [dedupGo, if_neg (hdis m (List.mem_cons_self _ _))]
    refine congrArg (m :: ·) (ih _ hnd.2 ?_)
    intro m' hm' hc
    rcases List.mem_cons.mp hc with he | hin
    · exact hnd.1 (he ▸ List.mem_map.mpr ⟨m', hm', rfl⟩)
    · exact hdis m' (List.mem_cons_of_mem _ hm') hin

theorem okResults_map_ok (rs : List (List Int))
    (f : List Int → List Message × List Int) :
    okResults (rs.map (fun r => Except.ok (f r))) = rs.map f := by
  induction rs with
  | nil => rfl
  | cons r t ih =>
    rw [List.map_cons, List.map_cons, okResults, List.filterMap_cons]
    simp only [Except.toOption]
    rw [← ih, okResults]

theorem ediv_day_eq_iff (b d : Int) :
    b / dayLen = d ↔ d * dayLen ≤ b ∧ b < (d + 1) * dayLen := by
  have hc : (0 : Int) < dayLen := by rw [dayLen]; norm_num
  constructor
  · intro h
    refine ⟨(Int.le_ediv_iff_mul_le hc).mp (le_of_eq h.symm), ?_⟩
    exact (Int.ediv_lt_iff_lt_mul hc).mp (h ▸ lt_add_one d)
  · rintro ⟨h1, h2⟩
    have ha : d ≤ b / dayLen := (Int.le_ediv_iff_mul_le hc).mpr h1
    have hb : b / dayLen < d + 1 := (Int.ediv_lt_iff_lt_mul hc).mpr h2
    omega

theorem localDay_interval_iff (tz ts a b' : Int) :
    (dayStartUtc tz a ≤ ts ∧ ts ≤ dayStartUtc tz (b' + 1) - 1)
      ↔ (a ≤ localDay tz ts ∧ localDay tz ts ≤ b') := by
  have hc : (0 : Int) < dayLen := by rw [dayLen]; norm_num
  rw [localDay, Int.fdiv_eq_ediv _ (le_of_lt hc), dayStartUtc, dayStartUtc]
  constructor
  · rintro ⟨h1, h2⟩
    have ha : a ≤ (ts + tz) / dayLen :=
      (Int.le_ediv_iff_mul_le hc).mpr (by linarith)
    have hb : (ts + tz) / dayLen < b' + 1 :=
      (Int.ediv_lt_iff_lt_mul hc).mpr (by linarith)
    exact ⟨ha, by omega⟩
  · rintro ⟨h1, h2⟩
    have ha : a * dayLen ≤ ts + tz := (Int.le_ediv_iff_mul_le hc).mp h1
    have hb : ts + tz < (b' + 1) * dayLen :=
      (Int.ediv_lt_iff_lt_mul hc).mp (by omega)
    exact ⟨by linarith, by linarith⟩

theorem takeWhile_eq_filter_of_desc {α : Type} (p : α → Bool) :
    ∀ (l : List α), List.Pairwise (fun a b => p b = true → p a = true) l →
      l.takeWhile p = l.filter p := by
  intro l
  induction l with
  | nil => intro _; rfl
  | cons a t ih =>
    intro hpw
    rw [List.pairwise_cons] at hpw
    by_cases ha : p a = true
    · rw [List.takeWhile_cons_of_pos ha, List.filter_cons_of_pos ha,
        ih hpw.2]
    · rw [List.takeWhile_cons_of_neg ha, List.filter_cons_of_neg ha]
      have : t.filter p = [] := by
        rw [List.filter_eq_nil_iff]
        intro b hb hc
        exact ha (hpw.1 b hb hc)
      rw [this]

theorem run_mem_iff :
    ∀ (t : List Int) (a x : Int),
      List.Chain' (fun u v => v - u = 1) (a :: t) →
      (x ∈ a :: t ↔ a ≤ x ∧ x ≤ (a :: t).getLastD 0) := by
  intro t
  induction t with
  | nil =>
    intro a x _
    have h1 : ([a] : List Int).getLastD 0 = a := rfl
    rw [h1, List.mem_singleton]
    omega
  | cons b t' ih =>
    intro a x hch
    rw [List.chain'_cons] at hch
    have hlast : (a :: b :: t').getLastD 0 = (b :: t').getLastD 0 := by
      simp [List.getLastD]
    rw [hlast]
    have hbmem : b ≤ (b :: t').getLastD 0 := by
      have := (ih b b hch.2).mp (List.mem_cons_self _ _)
      exact this.2
    constructor
    · intro hx
      rcases List.mem_cons.mp hx with rfl | hin
      · exact ⟨le_refl _, by omega⟩
      · have := (ih b x hch.2).mp hin
        exact ⟨by omega, this.2⟩
    · rintro ⟨h1, h2⟩
      by_cases hxa : x = a
      · exact hxa ▸ List.mem_cons_self _ _
      · have : b ≤ x := by omega
        exact List.mem_cons_of_mem _ ((ih b x hch.2).mpr ⟨this, h2⟩)

theorem buildRangesAux_flatten :
    ∀ (rest : List Int) (acc : List (List Int)) (cur : List Int) (prev : Int),
      (buildRangesAux acc cur prev rest).flatten
        = acc.flatten ++ cur ++ rest := by
  intro rest
  induction rest with
  | nil => intro acc cur prev; simp [buildRangesAux]
  | cons d ds ih =>
    intro acc cur prev
    rw [buildRangesAux]
    by_cases hd : d - prev = 1
    · rw [if_pos hd, ih]
      simp
    · rw [if_neg hd, ih]
      simp

theorem buildRangesAux_runs :
    ∀ (rest : List Int) (acc : List (List Int)) (cur : List Int) (prev : Int),
      (∀ r ∈ acc, r ≠ [] ∧ List.Chain' (fun u v => v - u = 1) r) →
      cur ≠ [] → List.Chain' (fun u v => v - u = 1) cur →
      cur.getLast? = some prev →
      ∀ r ∈ buildRangesAux acc cur prev rest,
        r ≠ [] ∧ List.Chain' (fun u v => v - u = 1) r := by
  intro rest
  induction rest with
  | nil =>
    intro acc cur prev hacc hne hch _ r hr
    rw [buildRangesAux] at hr
    rcases List.mem_append.mp hr with hr | hr
    · exact hacc r hr
    · rw [List.mem_singleton] at hr
      exact hr ▸ ⟨hne, hch⟩
  | cons d ds ih =>
    intro acc cur prev hacc hne hch hlast r hr
    rw [buildRangesAux] at hr
    by_cases hd : d - prev = 1
    · rw [if_pos hd] at hr
      refine ih acc (cur ++ [d]) d hacc (by simp) ?_ (by
        rw [List.getLast?_concat]) r hr
      rw [List.chain'_append]
      refine ⟨hch, List.chain'_singleton _, ?_⟩
      intro x hx y hy
      rw [hlast, Option.mem_some_iff] at hx
      rw [List.head?_cons, Option.mem_some_iff] at hy
      rw [← hx, ← hy]
      exact hd
    · rw [if_neg hd] at hr
      refine ih (acc ++ [cur]) [d] d ?_ (by simp)
        (List.chain'_singleton _) rfl r hr
      intro q hq
      rcases List.mem_append.mp hq with hq | hq
      · exact hacc q hq
      · rw [List.mem_singleton] at hq
        exact hq ▸ ⟨hne, hch⟩

theorem splitChunksGo_flatten (k : Nat) (hk : 1 ≤ k) :
    ∀ (fuel : Nat) (l : List Int), l.length ≤ fuel →
      (splitChunksGo k fuel l).flatten = l := by
  intro fuel
  induction fuel with
  | zero =>
    intro l hl
    match l with
    | [] => rfl
    | d :: rest => exact absurd hl (by simp)
  | succ f ih =>
    intro l hl
    match l with
    | [] => rfl
    | d :: rest =>
      have hd : ((d :: rest).drop k).length ≤ f := by
        rw [List.length_drop, List.length_cons]
        simp only [List.length_cons] at hl
        omega
      rw [splitChunksGo, List.flatten_cons, ih _ hd]
      exact List.take_append_drop _ _

theorem splitChunksGo_runs (k : Nat) (hk : 1 ≤ k) :
    ∀ (fuel : Nat) (l : List Int),
      List.Chain' (fun u v => v - u = 1) l →
      ∀ r ∈ splitChunksGo k fuel l,
        r ≠ [] ∧ List.Chain' (fun u v => v - u = 1) r := by
  intro fuel
  induction fuel with
  | zero =>
    intro l _ r hr
    match l with
    | [] => cases hr
    | d :: rest => cases hr
  | succ f ih =>
    intro l hch r hr
    match l with
    | [] => cases hr
    | d :: rest =>
      rw [splitChunksGo] at hr
      rcases List.mem_cons.mp hr with rfl | hr
      · constructor
        · match k, hk with
          | kk + 1, _ => simp [List.take_cons]
        · exact List.Chain'.take hch _
      · exact ih _ (List.Chain'.drop hch _) r hr

theorem splitChunks_flatten (k : Nat) (hk : 1 ≤ k) (l : List Int) :
    (splitChunks k l).flatten = l := by
  rw [splitChunks, if_neg (by omega)]
  exact splitChunksGo_flatten k hk _ l (le_refl _)

theorem split_fold_flatten (k : Nat) (hk : 1 ≤ k) :
    ∀ (ranges acc : List (List Int)),
      ((ranges.foldl
        (fun acc r =>
          if r.length > k then acc ++ splitChunks k r else acc ++ [r])
        acc).flatten)
      = acc.flatten ++ ranges.flatten := by
  intro ranges
  induction ranges with
  | nil => intro acc; simp
  | cons r rs ih =>
    intro acc
    rw [List.foldl_cons]
    by_cases hr : r.length > k
    · rw [if_pos hr, ih]
      simp [splitChunks_flatten k hk r]
    · rw [if_neg hr, ih]
      simp

theorem split_fold_runs (k : Nat) (hk : 1 ≤ k) :
    ∀ (ranges acc : List (List Int)),
      (∀ r ∈ acc, r ≠ [] ∧ List.Chain' (fun u v => v - u = 1) r) →
      (∀ r ∈ ranges, r ≠ [] ∧ List.Chain' (fun u v => v - u = 1) r) →
      ∀ r ∈ ranges.foldl
        (fun acc r =>
          if r.length > k then acc ++ splitChunks k r else acc ++ [r])
        acc,
        r ≠ [] ∧ List.Chain' (fun u v => v - u = 1) r := by
  intro ranges
  induction ranges with
  | nil => intro acc hacc _ r hr; exact hacc r hr
  | cons q rs ih =>
    intro acc hacc hranges r hr
    rw [List.foldl_cons] at hr
    have hq := hranges q (List.mem_cons_self _ _)
    have hrest : ∀ p ∈ rs, p ≠ [] ∧ List.Chain' (fun u v => v - u = 1) p :=
      fun p hp => hranges p (List.mem_cons_of_mem _ hp)
    by_cases hlen : q.length > k
    · rw [if_pos hlen] at hr
      refine ih _ ?_ hrest r hr
      intro p hp
      rcases List.mem_append.mp hp with hp | hp
      · exact hacc p hp
      · rw [splitChunks, if_neg (by omega)] at hp
        exact splitChunksGo_runs k hk _ q hq.2 p hp
    · rw [if_neg hlen] at hr
      refine ih _ ?_ hrest r hr
      intro p hp
      rcases List.mem_append.mp hp with hp | hp
      · exact hacc p hp
      · rw [List.mem_singleton] at hp
        exact hp ▸ hq

theorem group_ranges_flatten (ds : List Int) (k : Nat) (hk : 1 ≤ k) :
    (group_into_contiguous_ranges ds k).flatten = sortInts ds := by
  rw [group_into_contiguous_ranges]
  match hs : sortInts ds with
  | [] => rfl
  | d :: ds' =>
    rw [split_fold_flatten k hk, buildRangesAux_flatten]
    simp

theorem group_ranges_runs (ds : List Int) (k : Nat) (hk : 1 ≤ k) :
    ∀ r ∈ group_into_contiguous_ranges ds k,
      r ≠ [] ∧ List.Chain' (fun u v => v - u = 1) r := by
  rw [group_into_contiguous_ranges]
  match hs : sortInts ds with
  | [] => intro r hr; cases hr
  | d :: ds' =>
    intro r hr
    refine split_fold_runs k hk _ [] (by intro p hp; cases hp) ?_ r hr
    refine buildRangesAux_runs ds' [] [d] d (by intro p hp; cases hp)
      (by simp) (List.chain'_singleton _) rfl

theorem fetch_date_range_eq (tz : Int) (settings : ImageSettings)
    (remote : List TRaw) (r : List Int) (hne : r ≠ [])
    (hch : List.Chain' (fun u v => v - u = 1) r)
    (hdesc : remote.Pairwise (fun a b => b.ts < a.ts))
    (hlen : remote.length ≤ TELEGRAM_FETCH_LIMIT) :
    fetch_date_range tz settings remote (some ()) r
      = ((remote.filter (fun m => (truthyStr m.text || m.has_media)
            && decide (localDay tz m.ts ∈ r))).map (toMessage settings), r) := by
  match r, hne with
  | a :: t, _ =>
  rw [fetch_date_range]
  have htake : (remote.filter
        (fun m => decide (m.ts ≤ dayStartUtc tz ((a :: t).getLastD 0 + 1) - 1))).take
        TELEGRAM_FETCH_LIMIT
      = remote.filter
        (fun m => decide (m.ts ≤ dayStartUtc tz ((a :: t).getLastD 0 + 1) - 1)) :=
    List.take_of_length_le (le_trans (List.length_filter_le _ _) hlen)
  rw [htake]
  have hdesc2 : (remote.filter
      (fun m => decide (m.ts ≤ dayStartUtc tz ((a :: t).getLastD 0 + 1) - 1))).Pairwise
      (fun x y => y.ts < x.ts) :=
    List.Pairwise.sublist (List.filter_sublist remote) hdesc
  rw [takeWhile_eq_filter_of_desc _ _ (hdesc2.imp (by
    intro x y hxy hy
    rw [decide_eq_true_eq] at hy ⊢
    omega))]
  rw [List.filter_filter, List.filter_filter]
  have hfe : ∀ m : TRaw, m ∈ remote →
      (((truthyStr m.text || m.has_media)
          && decide (dayStartUtc tz ((a :: t).headD 0) ≤ m.ts))
        && decide (m.ts ≤ dayStartUtc tz ((a :: t).getLastD 0 + 1) - 1))
      = ((truthyStr m.text || m.has_media)
          && decide (localDay tz m.ts ∈ a :: t)) := by
    intro m _
    simp only [List.headD_cons]
    rw [Bool.and_assoc]
    refine congrArg (fun b => (truthyStr m.text || m.has_media) && b) ?_
    rw [← Bool.decide_and]
    apply decide_eq_decide.mpr
    exact (localDay_interval_iff tz m.ts a ((a :: t).getLastD 0)).trans
      (run_mem_iff t a (localDay tz m.ts) hch).symm
  exact congrArg (fun x : List TRaw => (List.map (toMessage settings) x, a :: t))
    (List.filter_congr hfe)

theorem filter_union_perm {α : Type} (key : α → Int) (p : α → Bool)
    (r s : List Int) (hdisj : ∀ x, x ∈ r → x ∉ s) :
    ∀ l : List α,
      List.Perm
        (l.filter (fun m => p m && decide (key m ∈ r))
          ++ l.filter (fun m => p m && decide (key m ∈ s)))
        (l.filter (fun m => p m && decide (key m ∈ r ++ s))) := by
  intro l
  induction l with
  | nil => rfl
  | cons m t ih =>
    by_cases hp : p m = true
    · by_cases hr : key m ∈ r
      · have hs : key m ∉ s := hdisj _ hr
        rw [List.filter_cons_of_pos (by simp [hp, hr]),
          List.filter_cons_of_neg (by simp [hp, hs]),
          List.filter_cons_of_pos (by simp [hp, List.mem_append, hr]),
          List.cons_append]
        exact ih.cons m
      · by_cases hs : key m ∈ s
        · rw [List.filter_cons_of_neg (by simp [hp, hr]),
            List.filter_cons_of_pos (by simp [hp, hs]),
            List.filter_cons_of_pos (by simp [hp, List.mem_append, hs])]
          exact List.perm_middle.trans (ih.cons m)
        · rw [List.filter_cons_of_neg (by simp [hp, hr]),
            List.filter_cons_of_neg (by simp [hp, hs]),
            List.filter_cons_of_neg (by simp [hp, List.mem_append, hr, hs])]
          exact ih
    · rw [List.filter_cons_of_neg (by simp [hp]),
        List.filter_cons_of_neg (by simp [hp]),
        List.filter_cons_of_neg (by simp [hp])]
      exact ih

theorem flatten_filter_perm {α : Type} (key : α → Int) (p : α → Bool)
    (l : List α) :
    ∀ (rs : List (List Int)), rs.flatten.Nodup →
      List.Perm
        ((rs.map (fun r => l.filter (fun m => p m && decide (key m ∈ r)))).flatten)
        (l.filter (fun m => p m && decide (key m ∈ rs.flatten))) := by
  intro rs
  induction rs with
  | nil =>
    intro _
    simp only [List.map_nil, List.flatten_nil]
    have h0 : l.filter
        (fun m => p m && decide (key m ∈ ([] : List Int))) = [] := by
      rw [List.filter_eq_nil_iff]
      intro m _
      simp
    rw [h0]
  | cons r rest ih =>
    intro hnd
    rw [List.flatten_cons] at hnd
    rcases List.nodup_append.mp hnd with ⟨hnr, hnrest, hdisj⟩
    rw [List.map_cons, List.flatten_cons, List.flatten_cons]
    refine List.Perm.trans (List.Perm.append_left _ (ih hnrest)) ?_
    exact filter_union_perm key p r rest.flatten
      (fun x hx => hdisj hx) l

theorem telegramCombine_canonical (tz : Int) (settings : ImageSettings)
    (remote : List TRaw) (ds : List Int) (k : Nat) (hk : 1 ≤ k)
    (hdesc : remote.Pairwise (fun a b => b.ts < a.ts))
    (hlen : remote.length ≤ TELEGRAM_FETCH_LIMIT)
    (hnd : ds.Nodup)
    (hrid : (remote.map TRaw.id).Nodup) :
    List.Perm
      ((telegramCombine ((group_into_contiguous_ranges ds k).map
          (fun r => Except.ok (fetch_date_range tz settings remote (some ()) r)))).1)
      ((remote.filter (fun m => (truthyStr m.text || m.has_media)
          && decide (localDay tz m.ts ∈ ds))).map (toMessage settings)) := by
  have hranges := group_ranges_runs ds k hk
  have hnflat : ((group_into_contiguous_ranges ds k).flatten).Nodup := by
    rw [group_ranges_flatten ds k hk, sortInts]
    exact ((List.perm_insertionSort _ ds).nodup_iff).mpr hnd
  have h1 : (telegramCombine ((group_into_contiguous_ranges ds k).map
      (fun r => Except.ok (fetch_date_range tz settings remote (some ()) r)))).1
      = dedupGo [] (((group_into_contiguous_ranges ds k).map
          (fun r => fetch_date_range tz settings remote (some ()) r)).map
            Prod.fst).flatten := by
    rw [telegramCombine_eq, okResults_map_ok]
  have hmapfst : ((group_into_contiguous_ranges ds k).map
      (fun r => fetch_date_range tz settings remote (some ()) r)).map Prod.fst
      = (group_into_contiguous_ranges ds k).map
          (fun r => (remote.filter (fun m => (truthyStr m.text || m.has_media)
            && decide (localDay tz m.ts ∈ r))).map (toMessage settings)) := by
    rw [List.map_map]
    apply List.map_congr_left
    intro r hr
    rcases hranges r hr with ⟨hne, hch⟩
    show (fetch_date_range tz settings remote (some ()) r).1 = _
    rw [fetch_date_range_eq tz settings remote r hne hch hdesc hlen]
  have hflat : ((group_into_contiguous_ranges ds k).map
      (fun r => (remote.filter (fun m => (truthyStr m.text || m.has_media)
        && decide (localDay tz m.ts ∈ r))).map (toMessage settings))).flatten
      = (((group_into_contiguous_ranges ds k).map
          (fun r => remote.filter (fun m => (truthyStr m.text || m.has_media)
            && decide (localDay tz m.ts ∈ r)))).flatten).map (toMessage settings) := by
    rw [List.map_flatten, List.map_map]
    rfl
  have hperm1 := flatten_filter_perm (fun m => localDay tz m.ts)
    (fun m => truthyStr m.text || m.has_media) remote
    (group_into_contiguous_ranges ds k) hnflat
  have hsort : remote.filter (fun m => (truthyStr m.text || m.has_media)
      && decide (localDay tz m.ts ∈ (group_into_contiguous_ranges ds k).flatten))
      = remote.filter (fun m => (truthyStr m.text || m.has_media)
        && decide (localDay tz m.ts ∈ ds)) := by
    apply List.filter_congr
    intro m _
    refine congrArg (fun b => (truthyStr m.text || m.has_media) && b) ?_
    apply decide_eq_decide.mpr
    rw [group_ranges_flatten ds k hk, sortInts]
    exact (List.perm_insertionSort _ ds).mem_iff
  have hip : List.Perm (((group_into_contiguous_ranges ds k).map
      (fun r => remote.filter (fun m => (truthyStr m.text || m.has_media)
        && decide (localDay tz m.ts ∈ r)))).flatten)
      (remote.filter (fun m => (truthyStr m.text || m.has_media)
        && decide (localDay tz m.ts ∈ ds))) := by
    rw [← hsort]
    exact hperm1
  have hids : (((((group_into_contiguous_ranges ds k).map
      (fun r => remote.filter (fun m => (truthyStr m.text || m.has_media)
        && decide (localDay tz m.ts ∈ r)))).flatten).map
          (toMessage settings)).map Message.id)
      = (((group_into_contiguous_ranges ds k).map
          (fun r => remote.filter (fun m => (truthyStr m.text || m.has_media)
            && decide (localDay tz m.ts ∈ r)))).flatten).map TRaw.id := by
    rw [List.map_map]
    apply List.map_congr_left
    intro x _
    rfl
  have hndids : ((((group_into_contiguous_ranges ds k).map
      (fun r => remote.filter (fun m => (truthyStr m.text || m.has_media)
        && decide (localDay tz m.ts ∈ r)))).flatten).map
          (toMessage settings)).map Message.id |>.Nodup := by
    rw [hids]
    apply ((hip.map TRaw.id).nodup_iff).mpr
    exact List.Nodup.sublist ((List.filter_sublist remote).map TRaw.id) hrid
  rw [h1, hmapfst, hflat]
  rw [dedupGo_eq_self _ [] hndids (by
    intro m _ hc
    cases hc)]
  exact hip.map (toMessage settings)

theorem flatMap_singleton_map {α β : Type} (f : α → β) :
    ∀ l : List α, (l.flatMap fun a => [f a]) = l.map f := by
  intro l
  induction l with
  | nil => rfl
  | cons a t ih => simp only [List.flatMap_cons, List.map_cons, ih]; rfl

theorem windowDays_eq (s l : Int) :
    windowDays s l
      = (List.range (l - s + 1).toNat).map (fun i : Nat => s + (i : Int)) := by
  simp [windowDays]
  rw [flatMap_singleton_map (fun a : Nat => (a : Int))]
  rw [List.map_map]
  rfl

theorem windowDays_nodup (s l : Int) : (windowDays s l).Nodup := by
  rw [windowDays_eq]
  refine List.Nodup.map ?_ (List.nodup_range _)
  intro i j hij
  have hij2 : s + (i : Int) = s + (j : Int) := hij
  omega

/-- C4 (amended): chunk-size invariance of the Telegram pipeline under the
conditions the code actually guarantees it for: any two chunk sizes `≥ 1`
produce the same final output provided the in-scope remote stream is
strictly descending by timestamp, holds at most `500` messages (the
`iter_messages(limit=500)` cap), and message ids and timestamps are globally
distinct across the cache hits and the remote stream.  Without the
500-message bound the claim is false (`C4_counterexample`). -/
theorem C4_chunk_invariance
    (cache : Int → CacheEntry) (tz today s l : Int) (k1 k2 : Nat)
    (settings : ImageSettings) (entity : Option Unit) (remote : List TRaw)
    (hk1 : 1 ≤ k1) (hk2 : 1 ≤ k2)
    (hdesc : remote.Pairwise (fun a b => b.ts < a.ts))
    (hlen : remote.length ≤ TELEGRAM_FETCH_LIMIT)
    (hids : ((partResult cache today s l).1.map Message.id
        ++ remote.map TRaw.id).Nodup)
    (hts : ((partResult cache today s l).1.map Message.timestamp
        ++ remote.map TRaw.ts).Nodup) :
    telegramRun cache tz today s l k1 settings entity remote
      = telegramRun cache tz today s l k2 settings entity remote := by
  rw [telegramRun, telegramRun]
  match hpart : partitionDays cache today (windowDays s l) with
  | .error e => rfl
  | .ok p =>
  obtain ⟨all, fetch⟩ := p
  match entity with
  | none => rfl
  | some u =>
  cases u
  show (if fetch.isEmpty = true then Except.ok (threadMessages all)
      else Except.ok (threadMessages (all
        ++ (telegramCombine ((group_into_contiguous_ranges fetch k1).map
          (fun r => Except.ok
            (fetch_date_range tz settings remote (some ()) r)))).1)))
    = (if fetch.isEmpty = true then Except.ok (threadMessages all)
      else Except.ok (threadMessages (all
        ++ (telegramCombine ((group_into_contiguous_ranges fetch k2).map
          (fun r => Except.ok
            (fetch_date_range tz settings remote (some ()) r)))).1)))
  by_cases hemp : fetch.isEmpty = true
  · rw [if_pos hemp, if_pos hemp]
  · rw [if_neg hemp, if_neg hemp]
    refine congrArg Except.ok ?_
    have hpr : partResult cache today s l = (all, fetch) := by
      rw [partResult, hpart]
    have hpr1 : (partResult cache today s l).1 = all := by rw [hpr]
    have hfetch_nodup : fetch.Nodup := by
      have hsub := partitionDays_miss_sublist cache today
        (windowDays s l) all fetch hpart
      exact List.Nodup.sublist hsub (windowDays_nodup s l)
    rw [hpr1] at hids hts
    rcases List.nodup_append.mp hids with ⟨hall_id, hrid, hdisj_id⟩
    rcases List.nodup_append.mp hts with ⟨hall_ts, hrts, hdisj_ts⟩
    have hperm1 := telegramCombine_canonical tz settings remote fetch k1 hk1
      hdesc hlen hfetch_nodup hrid
    have hperm2 := telegramCombine_canonical tz settings remote fetch k2 hk2
      hdesc hlen hfetch_nodup hrid
    have hcanid : (((remote.filter (fun m => (truthyStr m.text || m.has_media)
        && decide (localDay tz m.ts ∈ fetch))).map (toMessage settings)).map
          Message.id)
        = (remote.filter (fun m => (truthyStr m.text || m.has_media)
            && decide (localDay tz m.ts ∈ fetch))).map TRaw.id := by
      rw [List.map_map]
      apply List.map_congr_left
      intro x _
      rfl
    have hcants : (((remote.filter (fun m => (truthyStr m.text || m.has_media)
        && decide (localDay tz m.ts ∈ fetch))).map (toMessage settings)).map
          Message.timestamp)
        = (remote.filter (fun m => (truthyStr m.text || m.has_media)
            && decide (localDay tz m.ts ∈ fetch))).map TRaw.ts := by
      rw [List.map_map]
      apply List.map_congr_left
      intro x _
      rfl
    apply threadMessages_eq_of_perm
    · exact List.Perm.append_left all (hperm1.trans hperm2.symm)
    · rw [List.map_append]
      apply List.nodup_append.mpr
      refine ⟨hall_id, ?_, ?_⟩
      · apply ((hperm1.map Message.id).nodup_iff).mpr
        rw [hcanid]
        exact List.Nodup.sublist ((List.filter_sublist remote).map TRaw.id) hrid
      · intro x hx1 hx2
        have hx3 := ((hperm1.map Message.id).mem_iff).mp hx2
        rw [hcanid] at hx3
        have hx4 : x ∈ remote.map TRaw.id :=
          (((List.filter_sublist remote).map TRaw.id).subset) hx3
        exact hdisj_id hx1 hx4
    · rw [List.map_append]
      apply List.nodup_append.mpr
      refine ⟨hall_ts, ?_, ?_⟩
      · apply ((hperm1.map Message.timestamp).nodup_iff).mpr
        rw [hcants]
        exact List.Nodup.sublist ((List.filter_sublist remote).map TRaw.ts) hrts
      · intro x hx1 hx2
        have hx3 := ((hperm1.map Message.timestamp).mem_iff).mp hx2
        rw [hcants] at hx3
        have hx4 : x ∈ remote.map TRaw.ts :=
          (((List.filter_sublist remote).map TRaw.ts).subset) hx3
        exact hdisj_ts hx1 hx4

theorem C4_chunk_invariance_witness :
    1 ≤ 1 ∧
    telegramRun (fun _ => CacheEntry.absent) 0 2 0 1 1 exNoImages (some ())
        [cexRealRaw]
      = telegramRun (fun _ => CacheEntry.absent) 0 2 0 1 2 exNoImages (some ())
        [cexRealRaw] :=
  ⟨by decide,
    C4_chunk_invariance (fun _ => CacheEntry.absent) 0 2 0 1 1 2 exNoImages
      (some ()) [cexRealRaw] (by decide) (by decide) (by decide) (by decide)
      (by decide) (by decide)⟩

set_option maxRecDepth 4000000 in
/-- C4 counterexample: with 501 in-window remote messages (500 day-7 service
messages exhausting the `iter_messages(limit=500)` cap, then one real day-0
message), one 30-day chunk returns no messages at all — the cap cuts the
stream before the real message — while 7-day chunks recover it: the two
chunk sizes give different final outputs, so chunking is load-bearing. -/
theorem C4_counterexample :
    telegramRun (fun _ => CacheEntry.absent) 0 100 0 7 30 exNoImages (some ())
        cexRemote
      = Except.ok []
    ∧ telegramRun (fun _ => CacheEntry.absent) 0 100 0 7 7 exNoImages (some ())
        cexRemote
      = Except.ok [cexRealMsg] := by
  constructor
  · rfl
  · rfl

/-! ## Webex chunk-failure lemmas -/

theorem wDedupGo_mem_id (s : List String) :
    ∀ (l : List WRaw) (w : WRaw) (i : String), w ∈ l → w.id = some i →
      i ≠ "" → i ∉ s → ∃ w' ∈ wDedupGo s l, w'.id = some i := by
  intro l
  induction l generalizing s with
  | nil => intro w i hw; cases hw
  | cons a as ih =>
    intro w i hw hid hne hs
    rcases List.mem_cons.mp hw with rfl | hmem
    · rw [wDedupGo]
      simp only [hid]
      rw [if_pos ⟨hne, hs⟩]
      exact ⟨w, List.mem_cons_self _ _, hid⟩
    · match ha : a.id with
      | none =>
        rw [wDedupGo]
        simp only [ha]
        exact ih s w i hmem hid hne hs
      | some aid =>
        rw [wDedupGo]
        simp only [ha]
        by_cases hg : aid ≠ "" ∧ aid ∉ s
        · rw [if_pos hg]
          by_cases hia : i = aid
          · refine ⟨a, List.mem_cons_self _ _, ?_⟩
            rw [ha, hia]
          · rcases ih (aid :: s) w i hmem hid hne (by
              intro hc
              rcases List.mem_cons.mp hc with hc | hc
              · exact hia hc
              · exact hs hc) with ⟨w', hw', hwid⟩
            exact ⟨w', List.mem_cons_of_mem _ hw', hwid⟩
        · rw [if_neg hg]
          exact ih s w i hmem hid hne hs

theorem wOkResults_mem (results : List (Except Unit (List WRaw × List Int)))
    (msgs : List WRaw) (days : List Int)
    (h : Except.ok (msgs, days) ∈ results) :
    (msgs, days) ∈ wOkResults results := by
  rw [wOkResults]
  apply List.mem_filterMap.mpr
  exact ⟨Except.ok (msgs, days), h, rfl⟩

theorem wOkResults_all_error
    (results : List (Except Unit (List WRaw × List Int)))
    (h : ∀ r ∈ results, r = Except.error ()) :
    wOkResults results = [] := by
  rw [wOkResults]
  induction results with
  | nil => rfl
  | cons r rs ih =>
    rw [List.filterMap_cons]
    rw [h r (List.mem_cons_self _ _)]
    exact ih (fun r hr => h r (List.mem_cons_of_mem _ hr))

/-- C9 (amended): attachment policy.  (i) A downloaded Telegram payload
larger than a positive `max_size_bytes` produces zero attachments, whatever
the other settings.  (ii) The Telegram third-pass construction keeps every
message and its text unchanged, independent of the attachment outcome.
(iii) With `max_size_bytes = 0` the size check is skipped entirely: a
nonempty payload of any size is attached (provided its sniffed type is
allowed), and an empty `allowed_mime_types` list restricts nothing.  (iv) A
failed download (`none`) yields zero attachments.  (v)-(vii) The Webex
downloader rejects an oversize attachment, a failed HEAD probe, or a failed
GET with `None` — never an error.  (viii) The Webex third-pass construction
keeps every raw with truthy text, its text intact, whatever its attachments
do; but (ix) a Webex raw with falsy text whose every attachment failed or
was rejected is dropped from the output entirely — on that path a failed or
rejected download DOES remove the owning message. -/
theorem C9_attachment_policy :
    (∀ (s : ImageSettings) (hm : Bool) (bytes : List Nat),
      s.max_size_bytes > 0 → (bytes.length : Int) > s.max_size_bytes →
      download_message_media s hm (some bytes) = [])
    ∧ (∀ (s : ImageSettings) (raws : List TRaw),
        (raws.map (toMessage s)).map (fun m => (m.id, m.text))
          = raws.map (fun r => (r.id, r.text)))
    ∧ (∀ (s : ImageSettings) (bytes : List Nat),
        s.enabled = true → s.max_size_bytes = 0 → bytes.length > 0 →
        (s.allowed_mime_types = [] ∨ sniffMime bytes ∈ s.allowed_mime_types) →
        download_message_media s true (some bytes)
          = [{ mime_type := sniffMime bytes, data := base64Encode bytes }])
    ∧ (∀ (s : ImageSettings) (hm : Bool),
        download_message_media s hm none = [])
    ∧ (∀ (s : ImageSettings) (ct : String) (bytes : List Nat),
        s.max_size_bytes > 0 → (bytes.length : Int) > s.max_size_bytes →
        download_and_encode_file s (some (ct, (bytes.length : Int)))
          (some bytes) = none)
    ∧ (∀ (s : ImageSettings) (body : Option (List Nat)),
        download_and_encode_file s none body = none)
    ∧ (∀ (s : ImageSettings) (hd : Option (String × Int)),
        download_and_encode_file s hd none = none)
    ∧ (∀ (s : ImageSettings) (hd : String → Option (String × Int))
        (bd : String → Option (List Nat)) (r : WRaw),
        truthyStr r.text = true →
        webexBuildMessage s hd bd r
          = some { id := r.id.getD "", text := r.text,
                   author := { id := r.personId.getD "unknown",
                               name := r.personEmail.getD "Unknown User" },
                   timestamp := r.created, thread_id := r.parentId,
                   attachments := webexAttachments s hd bd r.files })
    ∧ (∀ (s : ImageSettings) (hd : String → Option (String × Int))
        (bd : String → Option (List Nat)) (r : WRaw),
        truthyStr r.text = false →
        webexAttachments s hd bd r.files = [] →
        webexBuildMessage s hd bd r = none) := by
  refine ⟨?_, ?_, ?_, ?_, ?_, ?_, ?_, ?_, ?_⟩
  · intro s hm bytes hpos hover
    rw [download_message_media.eq_def]
    by_cases hskip : ¬ hm = true ∨ ¬ s.enabled = true
    · rw [if_pos hskip]
    · rw [if_neg hskip]
      simp only
      rw [if_pos ⟨hpos, hover⟩]
  · intro s raws
    induction raws with
    | nil => rfl
    | cons r rs ih =>
      simp only [List.map_cons, ih]
      rfl
  · intro s bytes hen hsz hlen hallow
    rw [download_message_media.eq_def, if_neg (by simp [hen])]
    simp only
    rw [if_neg (by rw [hsz]; simp), if_pos hlen]
    rcases hallow with h | h
    · rw [if_neg (by simp [h])]
    · rw [if_neg (by simp [h])]
  · intro s hm
    rw [download_message_media.eq_def]
    by_cases hskip : ¬ hm = true ∨ ¬ s.enabled = true
    · rw [if_pos hskip]
    · rw [if_neg hskip]
  · intro s ct bytes hpos hover
    rw [download_and_encode_file.eq_def]
    by_cases hen : ¬ s.enabled = true
    · rw [if_pos hen]
    · rw [if_neg hen]
      simp only
      by_cases hty : s.allowed_mime_types ≠ [] ∧ ct ∉ s.allowed_mime_types
      · rw [if_pos hty]
      · rw [if_neg hty, if_pos ⟨hpos, hover⟩]
  · intro s body
    rw [download_and_encode_file.eq_def]
    by_cases hen : ¬ s.enabled = true
    · rw [if_pos hen]
    · rw [if_neg hen]
  · intro s hd
    rw [download_and_encode_file.eq_def]
    by_cases hen : ¬ s.enabled = true
    · rw [if_pos hen]
    · rw [if_neg hen]
      match hd with
      | none => simp only
      | some ct =>
        simp only
        by_cases hty : s.allowed_mime_types ≠ [] ∧ ct.1 ∉ s.allowed_mime_types
        · rw [if_pos hty]
        · rw [if_neg hty]
          by_cases hsz : s.max_size_bytes > 0 ∧ ct.2 > s.max_size_bytes
          · rw [if_pos hsz]
          · rw [if_neg hsz]

  · intro s hd bd r htr
    rw [webexBuildMessage]
    rw [if_pos (Or.inl htr)]
  · intro s hd bd r htr hatt
    rw [webexBuildMessage]
    rw [if_neg ?_]
    rintro (h | h)
    · rw [htr] at h
      cases h
    · exact h hatt

/-- C9 counterexample: a text-less Webex raw whose only attachment is an
11-byte PNG against a 10-byte cap is REMOVED from the output by the
third-pass guard `if msg_raw.get('text') or attachments` (webex_client
400-411) — the rejected download removes the owning message; the same raw
under an unlimited policy is kept, and a text-less Telegram raw in the same
situation also survives (with zero attachments), so the drop is specific to
the Webex construction. -/
theorem C9_counterexample :
    webexBuildMessage exCap10 exHead11 exBody11 wNoText = none
    ∧ webexBuildMessage exUnlimited exHead11 exBody11 wNoText
        = some { id := "w9", text := none,
                 author := { id := "unknown", name := "Unknown User" },
                 timestamp := 0, thread_id := none,
                 attachments := [{ mime_type := "image/png",
                                   data := base64Encode exPng11 }] }
    ∧ (toMessage exCap10 cexTgNoText).id = "t9"
    ∧ (toMessage exCap10 cexTgNoText).text = none
    ∧ (toMessage exCap10 cexTgNoText).attachments = [] := by
  refine ⟨?_, ?_, ?_, ?_, ?_⟩ <;> rfl

/-- C9 witness: an 11-byte PNG payload against a 10-byte cap is dropped on
both clients while a PNG payload under `max_size_bytes = 0` (unlimited) and
an empty allowed-type list is attached as `image/png`; the Telegram third
pass keeps the owning message's id and text either way; and a Webex raw
with truthy text survives the same 10-byte cap with its text intact. -/
theorem C9_witness :
    download_message_media exCap10 true (some exPng11) = []
    ∧ download_message_media exUnlimited true (some exPng4)
        = [{ mime_type := "image/png", data := base64Encode exPng4 }]
    ∧ download_and_encode_file exCap10 (some ("image/png", 11))
        (some exPng11) = none
    ∧ ([cexRealRaw].map (toMessage exCap10)).map (fun m => (m.id, m.text))
        = [("real", some "hello")]
    ∧ webexBuildMessage exCap10 exHead11 exBody11 exWM7
        = some { id := "M7", text := some "hi",
                 author := { id := "unknown", name := "Unknown User" },
                 timestamp := 0, thread_id := none, attachments := [] } := by
  refine ⟨?_, ?_, ?_, ?_, ?_⟩
  · exact C9_attachment_policy.1 exCap10 true exPng11 (by decide) (by decide)
  · have h := C9_attachment_policy.2.2.1 exUnlimited exPng4 rfl rfl
      (by decide) (Or.inl rfl)
    rw [h]
    rfl
  · exact C9_attachment_policy.2.2.2.2.1 exCap10 "image/png" exPng11
      (by decide) (by decide)
  · rw [C9_attachment_policy.2.1]
    rfl
  · rw [C9_attachment_policy.2.2.2.2.2.2.2.1 exCap10 exHead11 exBody11 exWM7
      (by decide)]
    rfl

set_option maxRecDepth 4000000 in
/-- C7 counterexample.  Telegram: a chunk whose fetch fails through the
in-chunk `get_entity` exception handler (telegram_client 264-266) returns
`([], range_days)` as a *successful* result, so with caching enabled its
past day 3 (today = 5) **is** written — as the empty entry `(3, [])`.
Webex: a pagination-batch failure is caught and `break`s (webex_client
255-260), so a chunk whose first batch fails returns `([], range_days)` as
a success and its day is likewise written empty; and a chunk whose *second*
batch fails after a full first batch returns a *partial* chunk (1000 of the
1001 messages the unfailed pagination fetches) still carrying **all** its
`range_days` — the unfetched day becomes an empty permanent entry and the
fetched day a partial one.  Both contradict "the failed chunk's days are
not written to the cache (no empty or partial entry is written for
them)". -/
theorem C7_counterexample :
    fetch_date_range 0 exNoImages [] none [3] = ([], [3])
    ∧ telegramCombine [Except.ok (fetch_date_range 0 exNoImages [] none [3])]
        = ([], [3])
    ∧ telegramWrites true 0 5
        (telegramCombine
          [Except.ok (fetch_date_range 0 exNoImages [] none [3])]).1
        (telegramCombine
          [Except.ok (fetch_date_range 0 exNoImages [] none [3])]).2
        = [(3, [])]
    ∧ webex_fetch_date_range 0 [Except.error ()] [3] = ([], [3])
    ∧ webexCombine
        [Except.ok (webex_fetch_date_range 0 [Except.error ()] [3])]
        = ([], [3])
    ∧ webexWrites true 0 5
        ((webexCombine
          [Except.ok (webex_fetch_date_range 0 [Except.error ()] [3])]).1.filterMap
            (webexBuildMessage exNoImages exHead11 exBody11))
        (webexCombine
          [Except.ok (webex_fetch_date_range 0 [Except.error ()] [3])]).2
        = [(3, [])]
    ∧ (webex_fetch_date_range 0 [Except.ok wBatch1000, Except.error ()]
        [3, 4]).2 = [3, 4]
    ∧ (webex_fetch_date_range 0 [Except.ok wBatch1000, Except.error ()]
        [3, 4]).1.length = 1000
    ∧ (webex_fetch_date_range 0 [Except.ok wBatch1000, Except.ok [wExtra]]
        [3, 4]).1.length = 1001 := by
  refine ⟨rfl, rfl, rfl, rfl, rfl, rfl, rfl, rfl, rfl⟩

/-- C7 (amended): chunk failure isolation for failures surfacing as
exceptions in the gather results, on both clients.  (i)/(vi) Every message
of every successful chunk (every truthy-id message, on Webex) is
represented by id in the merged output.  (ii)/(vii) A day covered by no
successful chunk never enters the fetched-day list, and (iii)/(viii) both
cache writers only write fetched days — so an exception-failed chunk's days
stay uncached.  (iv)/(ix) When every chunk fails, both combine stages yield
no messages and no fetched days, and (v)/(x) threading the cache hits alone
returns them normally (no exception is modelled anywhere in the merge
path).  However, a failure *caught inside* either `fetch_date_range` — the
Telegram entity-resolution handler, or a Webex pagination-batch failure
that `break`s mid-chunk — is reported as a successful (empty, resp.
partial) chunk whose `range_days` are all reported as fetched, and its past
days ARE written as empty or partial entries — see the counterexample. -/
theorem C7_chunk_failure_isolation :
    (∀ (results : List (Except Unit (List Message × List Int)))
      (msgs : List Message) (days : List Int) (m : Message),
      Except.ok (msgs, days) ∈ results → m ∈ msgs →
      ∃ m' ∈ (telegramCombine results).1, m'.id = m.id)
    ∧ (∀ (results : List (Except Unit (List Message × List Int))) (d : Int),
        (∀ msgs days, Except.ok (msgs, days) ∈ results → d ∉ days) →
        d ∉ (telegramCombine results).2)
    ∧ (∀ (flag : Bool) (tz today : Int) (newMsgs : List Message)
        (ranges : List Int) (p : Int × List Message),
        p ∈ telegramWrites flag tz today newMsgs ranges → p.1 ∈ ranges)
    ∧ (∀ results : List (Except Unit (List Message × List Int)),
        (∀ r ∈ results, r = Except.error ()) →
        telegramCombine results = ([], []))
    ∧ (∀ hits : List Message,
        threadMessages (hits ++ []) = threadMessages hits)
    ∧ (∀ (results : List (Except Unit (List WRaw × List Int)))
        (msgs : List WRaw) (days : List Int) (w : WRaw) (i : String),
        Except.ok (msgs, days) ∈ results → w ∈ msgs → w.id = some i →
        i ≠ "" → ∃ w' ∈ (webexCombine results).1, w'.id = some i)
    ∧ (∀ (results : List (Except Unit (List WRaw × List Int))) (d : Int),
        (∀ msgs days, Except.ok (msgs, days) ∈ results → d ∉ days) →
        d ∉ (webexCombine results).2)
    ∧ (∀ (flag : Bool) (tz today : Int) (processed : List Message)
        (ranges : List Int) (p : Int × List Message),
        p ∈ webexWrites flag tz today processed ranges → p.1 ∈ ranges)
    ∧ (∀ results : List (Except Unit (List WRaw × List Int)),
        (∀ r ∈ results, r = Except.error ()) →
        webexCombine results = ([], []))
    ∧ (∀ hits : List Message,
        webexThreadMessages (hits ++ []) = webexThreadMessages hits) := by
  refine ⟨?_, ?_, ?_, ?_, ?_, ?_, ?_, ?_, ?_, ?_⟩
  · intro results msgs days m hok hm
    rw [telegramCombine_eq]
    apply dedupGo_mem_id [] _ m ?_ (by simp)
    apply List.mem_flatten.mpr
    refine ⟨msgs, ?_, hm⟩
    exact List.mem_map.mpr ⟨(msgs, days), okResults_mem results msgs days hok, rfl⟩
  · intro results d hnone
    rw [telegramCombine_eq]
    intro hc
    simp only at hc
    rcases List.mem_flatten.mp hc with ⟨ds, hds, hd⟩
    rcases List.mem_map.mp hds with ⟨pr, hpr, rfl⟩
    rw [okResults] at hpr
    rcases List.mem_filterMap.mp hpr with ⟨r, hr, hro⟩
    match r with
    | .error e => cases hro
    | .ok pr' =>
      have : pr' = pr := by
        simpa [Except.toOption] using hro
      subst this
      exact hnone pr'.1 pr'.2 (by simpa using hr) hd
  · intro flag tz today newMsgs ranges p hp
    rw [telegramWrites] at hp
    by_cases hf : flag
    · rw [if_pos hf, telegramCacheWrites] at hp
      rcases List.mem_map.mp hp with ⟨d, hd, hpd⟩
      rw [← hpd]
      exact (List.mem_filter.mp hd).1
    · rw [if_neg hf] at hp
      cases hp
  · intro results h
    rw [telegramCombine_eq, okResults_all_error results h]
    rfl
  · intro hits
    rw [List.append_nil]

  · intro results msgs days w i hok hw hid hne
    rw [webexCombine_eq]
    apply wDedupGo_mem_id [] _ w i ?_ hid hne (by simp)
    apply List.mem_flatten.mpr
    refine ⟨msgs, ?_, hw⟩
    exact List.mem_map.mpr ⟨(msgs, days), wOkResults_mem results msgs days hok, rfl⟩
  · intro results d hnone
    rw [webexCombine_eq]
    intro hc
    simp only at hc
    rcases List.mem_flatten.mp hc with ⟨ds, hds, hd⟩
    rcases List.mem_map.mp hds with ⟨pr, hpr, rfl⟩
    rw [wOkResults] at hpr
    rcases List.mem_filterMap.mp hpr with ⟨r, hr, hro⟩
    match r with
    | .error e => cases hro
    | .ok pr' =>
      have : pr' = pr := by
        simpa [Except.toOption] using hro
      subst this
      exact hnone pr'.1 pr'.2 (by simpa using hr) hd
  · intro flag tz today processed ranges p hp
    rw [webexWrites] at hp
    rcases List.mem_map.mp hp with ⟨d, hd, hpd⟩
    rw [← hpd]
    exact (List.mem_filter.mp hd).1
  · intro results h
    rw [webexCombine_eq, wOkResults_all_error results h]
    rfl
  · intro hits
    rw [List.append_nil]

/-- C7 witness: on each client, one chunk succeeds with a message on day 3,
the other fails with an exception — the message survives the merge, the
failed chunk's day 4 is not among the fetched days, and an all-failed run
merges to nothing. -/
theorem C7_witness :
    (∃ m' ∈ (telegramCombine [Except.ok ([exA], [3]), Except.error ()]).1,
      m'.id = exA.id)
    ∧ (4 : Int) ∉ (telegramCombine
        [Except.ok ([exA], [3]), Except.error ()]).2
    ∧ telegramCombine [Except.error (), Except.error ()] = ([], [])
    ∧ (∃ w' ∈ (webexCombine [Except.ok ([exWM7], [3]), Except.error ()]).1,
        w'.id = some "M7")
    ∧ (4 : Int) ∉ (webexCombine
        [Except.ok ([exWM7], [3]), Except.error ()]).2
    ∧ webexCombine [Except.error (), Except.error ()] = ([], []) := by
  refine ⟨?_, ?_, ?_, ?_, ?_, ?_⟩
  · exact C7_chunk_failure_isolation.1
      [Except.ok ([exA], [3]), Except.error ()] [exA] [3] exA
      (List.mem_cons_self _ _) (List.mem_cons_self _ _)
  · apply C7_chunk_failure_isolation.2.1
    intro msgs days h
    rcases List.mem_cons.mp h with he | h2
    · have : days = [3] := congrArg Prod.snd (Except.ok.inj he)
      rw [this]
      decide
    · rcases List.mem_cons.mp h2 with he | h3
      · cases he
      · cases h3
  · apply C7_chunk_failure_isolation.2.2.2.1
    intro r hr
    rcases List.mem_cons.mp hr with rfl | hr
    · rfl
    · rcases List.mem_cons.mp hr with rfl | hr
      · rfl
      · cases hr
  · exact C7_chunk_failure_isolation.2.2.2.2.2.1
      [Except.ok ([exWM7], [3]), Except.error ()] [exWM7] [3] exWM7 "M7"
      (List.mem_cons_self _ _) (List.mem_cons_self _ _) rfl (by decide)
  · apply C7_chunk_failure_isolation.2.2.2.2.2.2.1
    intro msgs days h
    rcases List.mem_cons.mp h with he | h2
    · have : days = [3] := congrArg Prod.snd (Except.ok.inj he)
      rw [this]
      decide
    · rcases List.mem_cons.mp h2 with he | h3
      · cases he
      · cases h3
  · apply C7_chunk_failure_isolation.2.2.2.2.2.2.2.2.1
    intro r hr
    rcases List.mem_cons.mp hr with rfl | hr
    · rfl
    · rcases List.mem_cons.mp hr with rfl | hr
      · rfl
      · cases hr
